import Mathlib

/-!
Verification development for the size-targeted image compression engine of
`image-compress` (`src/compressors/image_compressor.py`, method
`ImageCompressor.compress_to_size`, lines 182-455; the code after the
`finally` block, lines 457-753, is analysed for reachability only).

The method is embedded shallowly.  The image codec (PIL) and the file system
are external collaborators; they are modelled by oracles collected in an
`Env` record:

* `p1enc q`    — the byte size of saving the RGB-converted working image as
  WEBP at quality `q` (line 292); `none` models the save throwing.
* `p2enc w h`  — the byte size of saving the grayscale working image resized
  to `w × h` as WEBP at quality 0 (lines 375-384 and 423-436); `none` models
  the save throwing.  Both Phase 2 and Phase 3 perform exactly this
  operation, so they share the oracle.
* `convEnc`    — the byte size written by the container re-encode
  `img.save(output_path)` at lines 327-328; `none` models it throwing.
* `prescaleEnc` — the byte size of the Phase-0 pre-scale JPEG (line 241).
* `rpow03`     — the float power `x ** 0.3` of line 351, kept abstract as a
  function on `ℚ`; the remaining float arithmetic (`0.7`, `0.05`, `0.2`,
  tolerance percentages) is modelled by exact rational arithmetic.

The file system is a list of records (path, size, format tag) together with
an ordered event trace (create / remove / rename), so that claims about
temp-file cleanup and atomicity of destination writes can be stated.  Paths
are symbolic: the temp names the code builds by string concatenation are
pairwise distinct and distinct from the input/output paths, which the
symbolic constructors reflect.
-/

/-- Content tag of a file: `webp` for WEBP saves, `jpeg` for the Phase-0
pre-scale JPEG, `other` for the container re-encode whose format PIL infers
from the destination extension (taken `≠ .webp` on that branch). -/
inductive Fmt where
  | webp
  | jpeg
  | other
deriving DecidableEq, Repr

/-- Symbolic file paths used by `compress_to_size`:
`input` is `input_path`; `output` is the requested output path, or the
default `<stem>_target_size<ext>` built at lines 209-212; `webpSibling` is
`splitext(output_path)[0] + ".webp"` (line 272), distinct from `output`
unless the output path already ends in `.webp`; `prescaleTemp` is
`output_path + ".temp.jpg"` (line 226); `p1temp q` is
`webp_output + ".temp<q>.webp"` (line 284); `p2temp i` is
`output_path + ".temp_resized<i>.webp"` (line 373); `p3temp` is
`output_path + ".final_attempt.webp"` (line 421). -/
inductive FPath where
  | input
  | output
  | webpSibling
  | prescaleTemp
  | p3temp
  | p1temp (q : ℕ)
  | p2temp (i : ℕ)
deriving DecidableEq, Repr

/-- Paths of temporary artifacts (everything the request creates other than
the final output location). -/
def FPath.isTemp : FPath → Bool
  | .prescaleTemp => true
  | .p1temp _ => true
  | .p2temp _ => true
  | .p3temp => true
  | _ => false

/-- File-system events, recorded in execution order. -/
inductive FsEvent where
  | create (p : FPath)
  | remove (p : FPath)
  | rename (src dst : FPath)
deriving DecidableEq, Repr

/-- One file on disk: its path, byte size, and content format. -/
structure FileRec where
  path : FPath
  size : ℕ
  fmt : Fmt
deriving DecidableEq, Repr

/-- File-system state: the files currently on disk plus the trace of all
events performed so far. -/
structure Fs where
  files : List FileRec
  events : List FsEvent
deriving DecidableEq, Repr

/-- Drop every record at path `p`. -/
def erasePath (l : List FileRec) (p : FPath) : List FileRec :=
  l.filter fun r => decide (¬ r.path = p)

/-- Look up the record at path `p` (first match). -/
def recFind (l : List FileRec) (p : FPath) : Option FileRec :=
  l.find? fun r => decide (r.path = p)

def Fs.findRec (fs : Fs) (p : FPath) : Option FileRec :=
  recFind fs.files p

/-- Models `os.path.getsize`; 0 when the file does not exist. -/
def Fs.size (fs : Fs) (p : FPath) : ℕ :=
  ((fs.findRec p).map FileRec.size).getD 0

/-- Content format of the file at `p`, when it exists. -/
def Fs.fmtOf (fs : Fs) (p : FPath) : Option Fmt :=
  (fs.findRec p).map FileRec.fmt

/-- Models `os.path.exists`. -/
def Fs.exists? (fs : Fs) (p : FPath) : Bool :=
  (fs.findRec p).isSome

/-- Models a codec save creating (or overwriting) the file at `p`. -/
def Fs.create (fs : Fs) (p : FPath) (sz : ℕ) (fm : Fmt) : Fs :=
  { files := ⟨p, sz, fm⟩ :: erasePath fs.files p
    events := fs.events ++ [FsEvent.create p] }

/-- Models `os.remove`. -/
def Fs.remove (fs : Fs) (p : FPath) : Fs :=
  { files := erasePath fs.files p
    events := fs.events ++ [FsEvent.remove p] }

/-- Models the `if os.path.exists(p): os.remove(p)` idiom. -/
def Fs.removeIfExists (fs : Fs) (p : FPath) : Fs :=
  if fs.exists? p then fs.remove p else fs

/-- Models `os.rename(src, dst)` (atomic replace of `dst`). -/
def Fs.rename (fs : Fs) (src dst : FPath) : Fs :=
  { files := ⟨dst, fs.size src, (fs.fmtOf src).getD Fmt.webp⟩ ::
      erasePath (erasePath fs.files src) dst
    events := fs.events ++ [FsEvent.rename src dst] }

theorem mem_erasePath {l : List FileRec} {p : FPath} {r : FileRec} :
    r ∈ erasePath l p ↔ r ∈ l ∧ r.path ≠ p := by
  simp [erasePath, List.mem_filter]

theorem recFind_cons_self {l : List FileRec} {r : FileRec} {p : FPath}
    (h : r.path = p) : recFind (r :: l) p = some r := by
  simp [recFind, List.find?, h]

theorem recFind_cons_ne {l : List FileRec} {r : FileRec} {p : FPath}
    (h : ¬ r.path = p) : recFind (r :: l) p = recFind l p := by
  simp [recFind, List.find?, h]

theorem recFind_erasePath_ne (l : List FileRec) {p p' : FPath}
    (h : ¬ p = p') : recFind (erasePath l p) p' = recFind l p' := by
  induction l with
  | nil => simp [erasePath, recFind]
  | cons r t ih =>
      by_cases hr : r.path = p
      · have hr' : ¬ r.path = p' := by
          intro hc
          exact h (hr ▸ hc)
        rw [recFind_cons_ne hr']
        have : erasePath (r :: t) p = erasePath t p := by
          simp [erasePath, List.filter, hr]
        rw [this, ih]
      · have : erasePath (r :: t) p = r :: erasePath t p := by
          simp [erasePath, List.filter, hr]
        rw [this]
        by_cases hr' : r.path = p'
        · rw [recFind_cons_self hr', recFind_cons_self hr']
        · rw [recFind_cons_ne hr', recFind_cons_ne hr', ih]

theorem recFind_erasePath_self (l : List FileRec) (p : FPath) :
    recFind (erasePath l p) p = none := by
  induction l with
  | nil => simp [erasePath, recFind]
  | cons r t ih =>
      by_cases hr : r.path = p
      · have : erasePath (r :: t) p = erasePath t p := by
          simp [erasePath, List.filter, hr]
        rw [this, ih]
      · have : erasePath (r :: t) p = r :: erasePath t p := by
          simp [erasePath, List.filter, hr]
        rw [this, recFind_cons_ne hr, ih]

theorem findRec_create_self (fs : Fs) (p : FPath) (sz : ℕ) (fm : Fmt) :
    (fs.create p sz fm).findRec p = some ⟨p, sz, fm⟩ := by
  simp [Fs.create, Fs.findRec, recFind_cons_self]

theorem findRec_create_ne (fs : Fs) {p p' : FPath} (sz : ℕ) (fm : Fmt)
    (h : ¬ p = p') : (fs.create p sz fm).findRec p' = fs.findRec p' := by
  simp only [Fs.create, Fs.findRec]
  rw [recFind_cons_ne (by simpa using h), recFind_erasePath_ne _ h]

theorem findRec_remove_self (fs : Fs) (p : FPath) :
    (fs.remove p).findRec p = none := by
  simp [Fs.remove, Fs.findRec, recFind_erasePath_self]

theorem findRec_remove_ne (fs : Fs) {p p' : FPath} (h : ¬ p = p') :
    (fs.remove p).findRec p' = fs.findRec p' := by
  simp only [Fs.remove, Fs.findRec]
  exact recFind_erasePath_ne _ h

theorem findRec_removeIfExists_ne (fs : Fs) {p p' : FPath} (h : ¬ p = p') :
    (fs.removeIfExists p).findRec p' = fs.findRec p' := by
  unfold Fs.removeIfExists
  split
  · exact findRec_remove_ne fs h
  · rfl

theorem findRec_rename_dst (fs : Fs) (src dst : FPath) :
    (fs.rename src dst).findRec dst =
      some ⟨dst, fs.size src, (fs.fmtOf src).getD Fmt.webp⟩ := by
  simp [Fs.rename, Fs.findRec, recFind_cons_self]

theorem findRec_rename_ne (fs : Fs) {src dst p : FPath}
    (h1 : ¬ dst = p) (h2 : ¬ src = p) :
    (fs.rename src dst).findRec p = fs.findRec p := by
  simp only [Fs.rename, Fs.findRec]
  rw [recFind_cons_ne (by simpa using h1), recFind_erasePath_ne _ h1,
    recFind_erasePath_ne _ h2]

theorem size_create_self (fs : Fs) (p : FPath) (sz : ℕ) (fm : Fmt) :
    (fs.create p sz fm).size p = sz := by
  simp [Fs.size, findRec_create_self]

theorem size_create_ne (fs : Fs) {p p' : FPath} (sz : ℕ) (fm : Fmt)
    (h : ¬ p = p') : (fs.create p sz fm).size p' = fs.size p' := by
  simp [Fs.size, findRec_create_ne fs sz fm h]

theorem size_remove_ne (fs : Fs) {p p' : FPath} (h : ¬ p = p') :
    (fs.remove p).size p' = fs.size p' := by
  simp [Fs.size, findRec_remove_ne fs h]

theorem size_removeIfExists_ne (fs : Fs) {p p' : FPath} (h : ¬ p = p') :
    (fs.removeIfExists p).size p' = fs.size p' := by
  simp [Fs.size, findRec_removeIfExists_ne fs h]

theorem size_rename_dst (fs : Fs) (src dst : FPath) :
    (fs.rename src dst).size dst = fs.size src := by
  simp [Fs.size, findRec_rename_dst]

theorem fmtOf_create_self (fs : Fs) (p : FPath) (sz : ℕ) (fm : Fmt) :
    (fs.create p sz fm).fmtOf p = some fm := by
  simp [Fs.fmtOf, findRec_create_self]

theorem fmtOf_create_ne (fs : Fs) {p p' : FPath} (sz : ℕ) (fm : Fmt)
    (h : ¬ p = p') : (fs.create p sz fm).fmtOf p' = fs.fmtOf p' := by
  simp [Fs.fmtOf, findRec_create_ne fs sz fm h]

theorem fmtOf_remove_ne (fs : Fs) {p p' : FPath} (h : ¬ p = p') :
    (fs.remove p).fmtOf p' = fs.fmtOf p' := by
  simp [Fs.fmtOf, findRec_remove_ne fs h]

theorem fmtOf_removeIfExists_ne (fs : Fs) {p p' : FPath} (h : ¬ p = p') :
    (fs.removeIfExists p).fmtOf p' = fs.fmtOf p' := by
  simp [Fs.fmtOf, findRec_removeIfExists_ne fs h]

theorem fmtOf_rename_dst (fs : Fs) {src : FPath} (dst : FPath) {fm : Fmt}
    (h : fs.fmtOf src = some fm) : (fs.rename src dst).fmtOf dst = some fm := by
  have h' : (fs.fmtOf src).getD Fmt.webp = fm := by rw [h]; rfl
  simp only [Fs.fmtOf, findRec_rename_dst, Option.map_some]
  simp only [Fs.fmtOf] at h'
  rw [h']
  rfl

theorem exists?_create_self (fs : Fs) (p : FPath) (sz : ℕ) (fm : Fmt) :
    (fs.create p sz fm).exists? p = true := by
  simp [Fs.exists?, findRec_create_self]

theorem exists?_create_ne (fs : Fs) {p p' : FPath} (sz : ℕ) (fm : Fmt)
    (h : ¬ p = p') : (fs.create p sz fm).exists? p' = fs.exists? p' := by
  simp [Fs.exists?, findRec_create_ne fs sz fm h]

theorem exists?_remove_ne (fs : Fs) {p p' : FPath} (h : ¬ p = p') :
    (fs.remove p).exists? p' = fs.exists? p' := by
  simp [Fs.exists?, findRec_remove_ne fs h]

theorem exists?_removeIfExists_ne (fs : Fs) {p p' : FPath} (h : ¬ p = p') :
    (fs.removeIfExists p).exists? p' = fs.exists? p' := by
  simp [Fs.exists?, findRec_removeIfExists_ne fs h]

theorem exists?_rename_dst (fs : Fs) (src dst : FPath) :
    (fs.rename src dst).exists? dst = true := by
  simp [Fs.exists?, findRec_rename_dst]

theorem mem_files_create {fs : Fs} {p : FPath} {sz : ℕ} {fm : Fmt}
    {r : FileRec} (h : r ∈ (fs.create p sz fm).files) :
    r = ⟨p, sz, fm⟩ ∨ (r ∈ fs.files ∧ r.path ≠ p) := by
  simp only [Fs.create, List.mem_cons] at h
  rcases h with h | h
  · exact Or.inl h
  · exact Or.inr (mem_erasePath.mp h)

theorem mem_files_remove {fs : Fs} {p : FPath} {r : FileRec}
    (h : r ∈ (fs.remove p).files) : r ∈ fs.files ∧ r.path ≠ p :=
  mem_erasePath.mp h

theorem mem_files_removeIfExists {fs : Fs} {p : FPath} {r : FileRec}
    (h : r ∈ (fs.removeIfExists p).files) : r ∈ fs.files := by
  unfold Fs.removeIfExists at h
  split at h
  · exact (mem_files_remove h).1
  · exact h

theorem mem_files_rename {fs : Fs} {src dst : FPath} {r : FileRec}
    (h : r ∈ (fs.rename src dst).files) :
    r.path = dst ∨ (r ∈ fs.files ∧ r.path ≠ src) := by
  simp only [Fs.rename, List.mem_cons] at h
  rcases h with h | h
  · exact Or.inl (by rw [h])
  · have h1 := mem_erasePath.mp h
    exact Or.inr ⟨(mem_erasePath.mp h1.1).1, (mem_erasePath.mp h1.1).2⟩

theorem events_create (fs : Fs) (p : FPath) (sz : ℕ) (fm : Fmt) :
    (fs.create p sz fm).events = fs.events ++ [FsEvent.create p] := rfl

theorem events_remove (fs : Fs) (p : FPath) :
    (fs.remove p).events = fs.events ++ [FsEvent.remove p] := rfl

theorem events_removeIfExists (fs : Fs) (p : FPath) :
    (fs.removeIfExists p).events =
      fs.events ++ (if fs.exists? p then [FsEvent.remove p] else []) := by
  unfold Fs.removeIfExists
  split
  · rfl
  · simp

theorem events_rename (fs : Fs) (src dst : FPath) :
    (fs.rename src dst).events = fs.events ++ [FsEvent.rename src dst] := rfl

/-- Exceptions `compress_to_size` can raise: `fileNotFound` (line 198),
`invalidImage` (line 202), `badScaleFactor` (line 207), `scaleError`
(line 249), `probeError` (line 296), `resizeError` (line 388), `finalError`
(line 440). -/
inductive CErr where
  | fileNotFound
  | invalidImage
  | badScaleFactor
  | scaleError
  | probeError
  | resizeError
  | finalError
deriving DecidableEq, Repr

/-- Which phase's `return` statement produced the final result: `p1` is the
return at line 343, `p2` the return at line 406, `p3` the return at
line 451. -/
inductive Phase where
  | p1
  | p2
  | p3
deriving DecidableEq, Repr

/-- The environment of one `compress_to_size` request: its arguments plus
the codec and file-system oracles (see the module docstring). -/
structure Env where
  inputExists : Bool
  isValidImage : Bool
  scaleFactor : Option ℚ
  targetKB : ℕ
  tolPct : ℚ
  outputEndsWebp : Bool
  prescaleEnc : Option ℕ
  inputSize : ℕ
  width : ℕ
  height : ℕ
  p1enc : ℕ → Option ℕ
  convEnc : Option ℕ
  p2enc : ℕ → ℕ → Option ℕ
  rpow03 : ℚ → ℚ
  preexisting : List FileRec

/-- `target_size_bytes = target_size_kb * 1024` (line 215). -/
def Env.target (env : Env) : ℕ := env.targetKB * 1024

/-- `tolerance = target_size_bytes * (tolerance_percent / 100)` (line 216). -/
def Env.tol (env : Env) : ℚ := (env.target : ℚ) * (env.tolPct / 100)

/-- `webp_output` (lines 271-274): the output path itself when it already
ends in `.webp`, otherwise its `.webp` sibling. -/
def Env.webpOutput (env : Env) : FPath :=
  if env.outputEndsWebp then FPath.output else FPath.webpSibling

/-- Initial file system of a request. -/
def Env.fs0 (env : Env) : Fs := ⟨env.preexisting, []⟩

/-- The Phase-1 binary-search loop, lines 280-315.  The Python `while
low <= high` loop is given explicit fuel; `none` models the (never
occurring) case that the fuel runs out before `low > high`.  Each
iteration: `mid = (low + high) // 2` (line 281); save as WEBP at quality
`mid` (line 292, oracle `p1enc`); on an exception delete the probe file and
raise (lines 293-296); if the size is `<= target_size_bytes` delete the old
best file, record the probe as best and set `low = mid+1` (lines 305-311);
otherwise delete the probe file and set `high = mid-1` (lines 313-315). -/
def phase1Loop (env : Env) :
    ℕ → ℕ → ℕ → Option (ℕ × ℕ) → Fs →
    Option (Except CErr Unit × Option (ℕ × ℕ) × Fs)
  | 0, low, high, best, fs =>
      if low ≤ high then none else some (Except.ok (), best, fs)
  | fuel + 1, low, high, best, fs =>
      if low ≤ high then
        let mid := (low + high) / 2
        match env.p1enc mid with
        | none =>
            some (Except.error CErr.probeError, best,
              fs.removeIfExists (FPath.p1temp mid))
        | some sz =>
            let fs1 := fs.create (FPath.p1temp mid) sz Fmt.webp
            if sz ≤ env.target then
              let fs2 := match best with
                | some (q, _) =>
                    if fs1.exists? (FPath.p1temp q) then
                      fs1.remove (FPath.p1temp q)
                    else fs1
                | none => fs1
              phase1Loop env fuel (mid + 1) high (some (mid, sz)) fs2
            else
              phase1Loop env fuel low (mid - 1) best
                (fs1.remove (FPath.p1temp mid))
      else some (Except.ok (), best, fs)

/-- Lines 317-343: if a best probe was found, delete any existing file at
`webp_output`, rename the best probe file there (lines 320-322); when the
requested output path is not `.webp`, attempt the container re-encode
`img.save(output_path)` and on success delete the WEBP file, on failure
keep the WEBP file as the output path (lines 324-335); finally measure the
output file and accept iff `final_size <= target_size_bytes + tolerance`
(lines 337-343).  Returns (accepted, current output path, file system). -/
def afterP1 (env : Env) (best : Option (ℕ × ℕ)) (fs : Fs) :
    Bool × FPath × Fs :=
  match best with
  | none => (false, FPath.output, fs)
  | some (q, _) =>
      if fs.exists? (FPath.p1temp q) then
        let fsA := fs.removeIfExists env.webpOutput
        let fsB := fsA.rename (FPath.p1temp q) env.webpOutput
        let step : FPath × Fs :=
          if env.outputEndsWebp then (FPath.output, fsB)
          else
            match env.convEnc with
            | some csz =>
                (FPath.output,
                  (fsB.create FPath.output csz Fmt.other).remove
                    FPath.webpSibling)
            | none => (FPath.webpSibling, fsB)
        let outP := step.1
        let fsC := step.2
        (decide ((fsC.size outP : ℚ) ≤ (env.target : ℚ) + env.tol), outP, fsC)
      else (false, FPath.output, fs)

/-- The Phase-2 downscale loop, lines 361-411.  `i` is the value the Python
`iteration` counter takes inside the body (1-based); `r` is the number of
iterations remaining out of `max_iterations = 10`.  Each iteration computes
`new_width = int(width * scale)` and `new_height = int(height * scale)`
(lines 366-367), converts to grayscale and saves as WEBP at quality 0
(lines 375-384, oracle `p2enc`); on an exception deletes the temp file and
raises (lines 385-388); if the size is `<= target + tolerance` replaces the
output path by the temp file and returns it (lines 396-406); otherwise
deletes the temp file, multiplies the scale by 0.7 re-clamped to the 0.05
floor, and retries (lines 408-411).  `Except.ok none` models falling out of
the loop after the 10th iteration. -/
def phase2Loop (env : Env) (outPath : FPath) :
    ℚ → ℕ → ℕ → Fs → Except CErr (Option FPath) × Fs
  | _, _, 0, fs => (Except.ok none, fs)
  | scale, i, r + 1, fs =>
      let w := (Rat.floor ((env.width : ℚ) * scale)).toNat
      let h := (Rat.floor ((env.height : ℚ) * scale)).toNat
      match env.p2enc w h with
      | none =>
          (Except.error CErr.resizeError, fs.removeIfExists (FPath.p2temp i))
      | some sz =>
          let fs1 := fs.create (FPath.p2temp i) sz Fmt.webp
          if (sz : ℚ) ≤ (env.target : ℚ) + env.tol then
            (Except.ok (some outPath),
              (fs1.removeIfExists outPath).rename (FPath.p2temp i) outPath)
          else
            phase2Loop env outPath (max (scale * (7 / 10)) (1 / 20)) (i + 1) r
              (fs1.remove (FPath.p2temp i))

/-- Phase 3, lines 413-451: delete the 10th iteration's temp file if it
still exists (lines 418-419), resize to
`max(10, int(width*0.2)) × max(10, int(height*0.2))`, grayscale, save as
WEBP at quality 0 (lines 423-436); on an exception delete the temp file and
raise (lines 437-440); otherwise replace the output path by the temp file
and return it unconditionally (lines 442-451). -/
def phase3 (env : Env) (outPath : FPath) (fs : Fs) :
    Except CErr (FPath × Phase) × Fs :=
  let fsA := fs.removeIfExists (FPath.p2temp 10)
  let w := max 10 (Rat.floor ((env.width : ℚ) * (2 / 10))).toNat
  let h := max 10 (Rat.floor ((env.height : ℚ) * (2 / 10))).toNat
  match env.p2enc w h with
  | none => (Except.error CErr.finalError, fsA.removeIfExists FPath.p3temp)
  | some sz =>
      let fsB := fsA.create FPath.p3temp sz Fmt.webp
      (Except.ok (outPath, Phase.p3),
        (fsB.removeIfExists outPath).rename FPath.p3temp outPath)

/-- Lines 345-455 minus the accepted Phase-1 exit: compute
`size_ratio = target / best_size if best_size > 0 else 0.5` (line 350),
the initial scale `size_ratio ** 0.3` clamped to the 0.05 floor
(lines 351-355), run the Phase-2 loop (`max_iterations = 10`, lines
357-411), and fall through to Phase 3 on exhaustion. -/
def sizeRatio (env : Env) (bestSize : ℕ) : ℚ :=
  if 0 < bestSize then (env.target : ℚ) / (bestSize : ℚ) else 1 / 2

def phase23 (env : Env) (best : Option (ℕ × ℕ)) (currentSize : ℕ)
    (outPath : FPath) (fs : Fs) : Except CErr (FPath × Phase) × Fs :=
  let bestSize := match best with
    | some (_, s) => s
    | none => currentSize
  let scale0 := max (env.rpow03 (sizeRatio env bestSize)) (1 / 20)
  match phase2Loop env outPath scale0 1 10 fs with
  | (Except.error e, fs') => (Except.error e, fs')
  | (Except.ok (some p), fs') => (Except.ok (p, Phase.p2), fs')
  | (Except.ok none, fs') => phase3 env outPath fs'

/-- The body of the `try` block, lines 261-451. -/
def runBody (env : Env) (currentSize : ℕ) (fs : Fs) :
    Option (Except CErr (FPath × Phase) × Fs) :=
  match phase1Loop env 96 1 95 none fs with
  | none => none
  | some (Except.error e, _, fs1) => some (Except.error e, fs1)
  | some (Except.ok _, best, fs1) =>
      let a := afterP1 env best fs1
      if a.1 then some (Except.ok (a.2.1, Phase.p1), a.2.2)
      else some (phase23 env best currentSize a.2.1 a.2.2)

/-- The `finally` block, lines 452-455: delete the Phase-0 pre-scale temp
file if it exists, on every exit path of the `try` body. -/
def finalizeRun :
    Option (Except CErr (FPath × Phase) × Fs) →
    Option (Except CErr (FPath × Phase) × Fs)
  | none => none
  | some (r, fs) => some (r, fs.removeIfExists FPath.prescaleTemp)

/-- The reachable part of `compress_to_size`, lines 197-455: precondition
checks (lines 197-207), the optional Phase-0 pre-scale (lines 225-249,
oracle `prescaleEnc`; note its cleanup at lines 246-249 is outside the
`try`/`finally`), then the `try` body wrapped by the `finally`.  The result
is `none` only if the Phase-1 `while` loop were to outrun its fuel. -/
def compressToSize (env : Env) :
    Option (Except CErr (FPath × Phase) × Fs) :=
  if env.inputExists = false then some (Except.error CErr.fileNotFound, env.fs0)
  else if env.isValidImage = false then
    some (Except.error CErr.invalidImage, env.fs0)
  else
    match env.scaleFactor with
    | none => finalizeRun (runBody env env.inputSize env.fs0)
    | some sf =>
        if sf < 1 / 10 ∨ 1 < sf then
          some (Except.error CErr.badScaleFactor, env.fs0)
        else if sf ≠ 1 then
          match env.prescaleEnc with
          | none =>
              some (Except.error CErr.scaleError,
                env.fs0.removeIfExists FPath.prescaleTemp)
          | some psz =>
              finalizeRun (runBody env psz
                (env.fs0.create FPath.prescaleTemp psz Fmt.jpeg))
        else finalizeRun (runBody env env.inputSize env.fs0)

/-- The qualities probed during Phase 1, read off the event trace: one
`create` of a `p1temp` file per successful probe encode, in order. -/
def probedQualities (evs : List FsEvent) : List ℕ :=
  evs.filterMap fun e =>
    match e with
    | FsEvent.create (FPath.p1temp q) => some q
    | _ => none

/-- The events that write (create or rename onto) the path `dst`. -/
def destWrites (evs : List FsEvent) (dst : FPath) : List FsEvent :=
  evs.filter fun e =>
    match e with
    | FsEvent.create p => decide (p = dst)
    | FsEvent.rename _ d => decide (d = dst)
    | FsEvent.remove _ => false

/-- The best (quality, size) pair retained by the Phase-1 search of a
request, projected from the embedded loop. -/
def p1best (env : Env) : Option (ℕ × ℕ) :=
  match phase1Loop env 96 1 95 none env.fs0 with
  | some (Except.ok _, b, _) => b
  | _ => none

/-- The size measured at line 337 as a function of the best probe size `s`:
the container re-encode's size when it runs and succeeds, otherwise `s`. -/
def p1finalSizeVal (env : Env) (s : ℕ) : ℕ :=
  if env.outputEndsWebp then s
  else
    match env.convEnc with
    | some csz => csz
    | none => s

/-- The size compared against `target + tolerance` at line 342. -/
def p1finalSize (env : Env) : ℕ :=
  match p1best env with
  | some (_, s) => p1finalSizeVal env s
  | none => 0

/-- The value of the code's `best_size` variable as Phase 2 starts
(line 350), for a request without Phase-0 pre-scale. -/
def p2baseSize (env : Env) : ℕ :=
  match p1best env with
  | some (_, s) => s
  | none => env.inputSize

/-- The `size_ratio` of line 350. -/
def p2ratio (env : Env) : ℚ :=
  sizeRatio env (p2baseSize env)

/-- The scale used by the `k`-th Phase-2 iteration (0-based) when the first
iteration runs at scale `s`: each subsequent iteration multiplies by 0.7
and re-clamps to the 0.05 floor (lines 410-411). -/
def p2scaleGen (s : ℚ) : ℕ → ℚ
  | 0 => s
  | k + 1 => max (p2scaleGen s k * (7 / 10)) (1 / 20)

/-- The scale of the `k`-th Phase-2 iteration of a request (no pre-scale):
the initial scale is `(size_ratio) ** 0.3` clamped to 0.05
(lines 351-355). -/
def p2scaleAt (env : Env) (k : ℕ) : ℚ :=
  p2scaleGen (max (env.rpow03 (p2ratio env)) (1 / 20)) k

/-- The dimensions the `k`-th Phase-2 iteration resizes to, starting from
scale `s` (lines 366-367). -/
def p2dimsGen (env : Env) (s : ℚ) (k : ℕ) : ℕ × ℕ :=
  ((Rat.floor ((env.width : ℚ) * p2scaleGen s k)).toNat,
   (Rat.floor ((env.height : ℚ) * p2scaleGen s k)).toNat)

/-- The dimensions of the `k`-th Phase-2 iteration of a request. -/
def p2dimsAt (env : Env) (k : ℕ) : ℕ × ℕ :=
  p2dimsGen env (max (env.rpow03 (p2ratio env)) (1 / 20)) k

/-- The encode outcome of the `k`-th Phase-2 iteration of a request. -/
def p2probe (env : Env) (k : ℕ) : Option ℕ :=
  env.p2enc (p2dimsAt env k).1 (p2dimsAt env k).2

/-- Boolean check that a run concluded `Except.ok` at path `p` in phase
`ph`. -/
def isOkAt (o : Option (Except CErr (FPath × Phase) × Fs)) (p : FPath)
    (ph : Phase) : Bool :=
  match o with
  | some (Except.ok (p', ph'), _) => decide (p' = p) && decide (ph' = ph)
  | _ => false

/-- Boolean check that a run raised the exception `e`. -/
def isErrAt (o : Option (Except CErr (FPath × Phase) × Fs)) (e : CErr) :
    Bool :=
  match o with
  | some (Except.error e', _) => decide (e' = e)
  | _ => false

/-- Final file system of a run (the empty file system if `none`). -/
def finalFsOf (o : Option (Except CErr (FPath × Phase) × Fs)) : Fs :=
  match o with
  | some (_, fs) => fs
  | none => ⟨[], []⟩

theorem isOkAt_iff {o : Option (Except CErr (FPath × Phase) × Fs)}
    {p : FPath} {ph : Phase} :
    isOkAt o p ph = true ↔ ∃ fs, o = some (Except.ok (p, ph), fs) := by
  constructor
  · intro h
    match o with
    | some (Except.ok (p', ph'), fs) =>
        simp only [isOkAt, Bool.and_eq_true, decide_eq_true_eq] at h
        exact ⟨fs, by rw [h.1, h.2]⟩
    | some (Except.error _, _) => simp [isOkAt] at h
    | none => simp [isOkAt] at h
  · rintro ⟨fs, rfl⟩
    simp [isOkAt]

/-- A nominal request environment used by the concrete instantiations:
valid decodable input, no pre-scale, target 1 KB, tolerance 5%, output path
ending in `.webp`, every Phase-1 probe encoding to 2000 bytes and every
grayscale downscale encoding to 2000 bytes. -/
def baseEnv : Env :=
  { inputExists := true
    isValidImage := true
    scaleFactor := none
    targetKB := 1
    tolPct := 5
    outputEndsWebp := true
    prescaleEnc := none
    inputSize := 5000
    width := 100
    height := 80
    p1enc := fun _ => some 2000
    convEnc := none
    p2enc := fun _ _ => some 2000
    rpow03 := fun _ => 1 / 2
    preexisting := [] }

theorem probedQualities_append (a b : List FsEvent) :
    probedQualities (a ++ b) = probedQualities a ++ probedQualities b :=
  List.filterMap_append a b _

theorem probedQualities_create_p1 (q : ℕ) :
    probedQualities [FsEvent.create (FPath.p1temp q)] = [q] := rfl

theorem probedQualities_remove (p : FPath) :
    probedQualities [FsEvent.remove p] = [] := rfl

/-- Totality of the Phase-1 loop: with fuel at least the width of the
search interval, the modelled `while low <= high` loop always reaches its
exit (each probe strictly shrinks the interval). -/
theorem phase1_total (env : Env) :
    ∀ fuel low high best fs, 1 ≤ low → high + 1 - low ≤ fuel →
      (phase1Loop env fuel low high best fs).isSome = true := by
  intro fuel
  induction fuel with
  | zero =>
      intro low high best fs hlow hf
      have hlh : ¬ low ≤ high := by omega
      simp [phase1Loop, hlh]
  | succ m ih =>
      intro low high best fs hlow hf
      by_cases hlh : low ≤ high
      · simp only [phase1Loop, if_pos hlh]
        cases henc : env.p1enc ((low + high) / 2) with
        | none => simp
        | some sz =>
            simp only []
            by_cases hsz : sz ≤ env.target
            · simp only [if_pos hsz]
              apply ih
              · omega
              · omega
            · simp only [if_neg hsz]
              apply ih
              · omega
              · omega
      · simp [phase1Loop, hlh]

/-- Characterization of the Phase-1 binary search when every probe encode
succeeds (`p1enc` is the graph of `f`): the loop exits normally, every
probe lies in the current search interval, the number of probes is
logarithmic in the interval width, and the retained best is exactly the
feasible (size below target) probe of highest quality, or the incoming
best when no probe is feasible. -/
theorem phase1_char (env : Env) (f : ℕ → ℕ)
    (henc : ∀ q, env.p1enc q = some (f q)) :
    ∀ fuel low high best fs, 1 ≤ low → high + 1 - low ≤ fuel →
      ∃ b fs' delta,
        phase1Loop env fuel low high best fs = some (Except.ok (), b, fs') ∧
        fs'.events = fs.events ++ delta ∧
        (∀ e ∈ delta, (∃ q, e = FsEvent.create (FPath.p1temp q)) ∨
          (∃ q, e = FsEvent.remove (FPath.p1temp q))) ∧
        (∀ q ∈ probedQualities delta, low ≤ q ∧ q ≤ high) ∧
        (∀ n, high + 1 - low < 2 ^ n → (probedQualities delta).length ≤ n) ∧
        ((b = best ∧ ∀ q ∈ probedQualities delta, ¬ f q ≤ env.target) ∨
         (∃ q, b = some (q, f q) ∧ f q ≤ env.target ∧
           q ∈ probedQualities delta ∧
           ∀ q2 ∈ probedQualities delta, f q2 ≤ env.target → q2 ≤ q)) := by
  intro fuel
  induction fuel with
  | zero =>
      intro low high best fs hlow hf
      have hlh : ¬ low ≤ high := by omega
      refine ⟨best, fs, [], by simp [phase1Loop, hlh], by simp, by simp, ?_, ?_, ?_⟩
      · intro q hq
        simp [probedQualities] at hq
      · intro n _
        simp [probedQualities]
      · exact Or.inl ⟨rfl, fun q hq => by simp [probedQualities] at hq⟩
  | succ m ih =>
      intro low high best fs hlow hf
      by_cases hlh : low ≤ high
      case neg =>
        refine ⟨best, fs, [], by simp [phase1Loop, hlh], by simp, by simp, ?_, ?_, ?_⟩
        · intro q hq
          simp [probedQualities] at hq
        · intro n _
          simp [probedQualities]
        · exact Or.inl ⟨rfl, fun q hq => by simp [probedQualities] at hq⟩
      case pos =>
        have hm1 : low ≤ (low + high) / 2 := by omega
        have hm2 : (low + high) / 2 ≤ high := by omega
        by_cases hsz : f ((low + high) / 2) ≤ env.target
        · -- feasible probe: record it, search upward
          rcases best with _ | ⟨qold, sold⟩
          · -- no previous best: no old file to delete
            obtain ⟨b, fs', delta', hEq, hEv, hShape, hRange, hLen, hDisj⟩ :=
              ih ((low + high) / 2 + 1) high
                (some ((low + high) / 2, f ((low + high) / 2)))
                (fs.create (FPath.p1temp ((low + high) / 2))
                  (f ((low + high) / 2)) Fmt.webp)
                (by omega) (by omega)
            refine ⟨b, fs',
              FsEvent.create (FPath.p1temp ((low + high) / 2)) :: delta',
              ?_, ?_, ?_, ?_, ?_, ?_⟩
            · simp only [phase1Loop, if_pos hlh, henc, if_pos hsz]
              exact hEq
            · rw [hEv]
              simp [Fs.create]
            · intro e he
              rcases List.mem_cons.mp he with he | he
              · exact Or.inl ⟨_, he⟩
              · exact hShape e he
            · intro q hq
              rcases List.mem_cons.mp hq with hq | hq
              · subst hq
                exact ⟨hm1, hm2⟩
              · have := hRange q hq
                exact ⟨by omega, this.2⟩
            · intro n hn
              match n with
              | 0 => omega
              | k + 1 =>
                  have h2 : (2 : ℕ) ^ (k + 1) = 2 * 2 ^ k := by ring
                  have := hLen k (by omega)
                  have hre : probedQualities
                      (FsEvent.create (FPath.p1temp ((low + high) / 2)) :: delta') =
                      (low + high) / 2 :: probedQualities delta' := by
                    simp [probedQualities]
                  rw [hre]
                  simp only [List.length_cons]
                  omega
            · rcases hDisj with ⟨hb, hinf⟩ | ⟨q, hb, hq, hmem, hmax⟩
              · refine Or.inr ⟨(low + high) / 2, hb, hsz, List.mem_cons_self _ _, ?_⟩
                intro q2 hq2 hfq2
                rcases List.mem_cons.mp hq2 with hq2 | hq2
                · omega
                · exact absurd hfq2 (hinf q2 hq2)
              · refine Or.inr ⟨q, hb, hq, List.mem_cons_of_mem _ hmem, ?_⟩
                intro q2 hq2 hfq2
                rcases List.mem_cons.mp hq2 with hq2 | hq2
                · subst hq2
                  have := hRange q hmem
                  omega
                · exact hmax q2 hq2 hfq2
          · -- a previous best exists: the code deletes its file first
            by_cases hex :
              ((fs.create (FPath.p1temp ((low + high) / 2))
                (f ((low + high) / 2)) Fmt.webp).exists?
                  (FPath.p1temp qold)) = true
            · obtain ⟨b, fs', delta', hEq, hEv, hShape, hRange, hLen, hDisj⟩ :=
                ih ((low + high) / 2 + 1) high
                  (some ((low + high) / 2, f ((low + high) / 2)))
                  ((fs.create (FPath.p1temp ((low + high) / 2))
                    (f ((low + high) / 2)) Fmt.webp).remove
                      (FPath.p1temp qold))
                  (by omega) (by omega)
              refine ⟨b, fs',
                FsEvent.create (FPath.p1temp ((low + high) / 2)) ::
                  FsEvent.remove (FPath.p1temp qold) :: delta',
                ?_, ?_, ?_, ?_, ?_, ?_⟩
              · simp only [phase1Loop, if_pos hlh, henc, if_pos hsz, hex,
                  if_true]
                exact hEq
              · rw [hEv]
                simp [Fs.create, Fs.remove]
              · intro e he
                rcases List.mem_cons.mp he with he | he
                · exact Or.inl ⟨_, he⟩
                · rcases List.mem_cons.mp he with he | he
                  · exact Or.inr ⟨_, he⟩
                  · exact hShape e he
              · intro q hq
                have hq' : q = (low + high) / 2 ∨ q ∈ probedQualities delta' := by
                  simpa [probedQualities] using hq
                rcases hq' with hq' | hq'
                · subst hq'
                  exact ⟨hm1, hm2⟩
                · have := hRange q hq'
                  exact ⟨by omega, this.2⟩
              · intro n hn
                match n with
                | 0 => omega
                | k + 1 =>
                    have h2 : (2 : ℕ) ^ (k + 1) = 2 * 2 ^ k := by ring
                    have := hLen k (by omega)
                    have hre : probedQualities
                        (FsEvent.create (FPath.p1temp ((low + high) / 2)) ::
                          FsEvent.remove (FPath.p1temp qold) :: delta') =
                        (low + high) / 2 :: probedQualities delta' := by
                      simp [probedQualities]
                    rw [hre]
                    simp only [List.length_cons]
                    omega
              · have hre : probedQualities
                    (FsEvent.create (FPath.p1temp ((low + high) / 2)) ::
                      FsEvent.remove (FPath.p1temp qold) :: delta') =
                    (low + high) / 2 :: probedQualities delta' := by
                  simp [probedQualities]
                rw [hre]
                rcases hDisj with ⟨hb, hinf⟩ | ⟨q, hb, hq, hmem, hmax⟩
                · refine Or.inr ⟨(low + high) / 2, hb, hsz, List.mem_cons_self _ _, ?_⟩
                  intro q2 hq2 hfq2
                  rcases List.mem_cons.mp hq2 with hq2 | hq2
                  · omega
                  · exact absurd hfq2 (hinf q2 hq2)
                · refine Or.inr ⟨q, hb, hq, List.mem_cons_of_mem _ hmem, ?_⟩
                  intro q2 hq2 hfq2
                  rcases List.mem_cons.mp hq2 with hq2 | hq2
                  · subst hq2
                    have := hRange q hmem
                    omega
                  · exact hmax q2 hq2 hfq2
            · obtain ⟨b, fs', delta', hEq, hEv, hShape, hRange, hLen, hDisj⟩ :=
                ih ((low + high) / 2 + 1) high
                  (some ((low + high) / 2, f ((low + high) / 2)))
                  (fs.create (FPath.p1temp ((low + high) / 2))
                    (f ((low + high) / 2)) Fmt.webp)
                  (by omega) (by omega)
              refine ⟨b, fs',
                FsEvent.create (FPath.p1temp ((low + high) / 2)) :: delta',
                ?_, ?_, ?_, ?_, ?_, ?_⟩
              · simp only [phase1Loop, if_pos hlh, henc, if_pos hsz,
                  Bool.not_eq_true] at hex ⊢
                simp only [hex, if_false]
                exact hEq
              · rw [hEv]
                simp [Fs.create]
              · intro e he
                rcases List.mem_cons.mp he with he | he
                · exact Or.inl ⟨_, he⟩
                · exact hShape e he
              · intro q hq
                rcases List.mem_cons.mp hq with hq | hq
                · subst hq
                  exact ⟨hm1, hm2⟩
                · have := hRange q hq
                  exact ⟨by omega, this.2⟩
              · intro n hn
                match n with
                | 0 => omega
                | k + 1 =>
                    have h2 : (2 : ℕ) ^ (k + 1) = 2 * 2 ^ k := by ring
                    have := hLen k (by omega)
                    have hre : probedQualities
                        (FsEvent.create (FPath.p1temp ((low + high) / 2)) :: delta') =
                        (low + high) / 2 :: probedQualities delta' := by
                      simp [probedQualities]
                    rw [hre]
                    simp only [List.length_cons]
                    omega
              · rcases hDisj with ⟨hb, hinf⟩ | ⟨q, hb, hq, hmem, hmax⟩
                · refine Or.inr ⟨(low + high) / 2, hb, hsz, List.mem_cons_self _ _, ?_⟩
                  intro q2 hq2 hfq2
                  rcases List.mem_cons.mp hq2 with hq2 | hq2
                  · omega
                  · exact absurd hfq2 (hinf q2 hq2)
                · refine Or.inr ⟨q, hb, hq, List.mem_cons_of_mem _ hmem, ?_⟩
                  intro q2 hq2 hfq2
                  rcases List.mem_cons.mp hq2 with hq2 | hq2
                  · subst hq2
                    have := hRange q hmem
                    omega
                  · exact hmax q2 hq2 hfq2
        · -- infeasible probe: delete it, search downward
          obtain ⟨b, fs', delta', hEq, hEv, hShape, hRange, hLen, hDisj⟩ :=
            ih low ((low + high) / 2 - 1) best
              ((fs.create (FPath.p1temp ((low + high) / 2))
                (f ((low + high) / 2)) Fmt.webp).remove
                  (FPath.p1temp ((low + high) / 2)))
              (by omega) (by omega)
          refine ⟨b, fs',
            FsEvent.create (FPath.p1temp ((low + high) / 2)) ::
              FsEvent.remove (FPath.p1temp ((low + high) / 2)) :: delta',
            ?_, ?_, ?_, ?_, ?_, ?_⟩
          · simp only [phase1Loop, if_pos hlh, henc, if_neg hsz]
            exact hEq
          · rw [hEv]
            simp [Fs.create, Fs.remove]
          · intro e he
            rcases List.mem_cons.mp he with he | he
            · exact Or.inl ⟨_, he⟩
            · rcases List.mem_cons.mp he with he | he
              · exact Or.inr ⟨_, he⟩
              · exact hShape e he
          · intro q hq
            have hq' : q = (low + high) / 2 ∨ q ∈ probedQualities delta' := by
              simpa [probedQualities] using hq
            rcases hq' with hq' | hq'
            · subst hq'
              exact ⟨hm1, hm2⟩
            · have := hRange q hq'
              exact ⟨this.1, by omega⟩
          · intro n hn
            match n with
            | 0 => omega
            | k + 1 =>
                have h2 : (2 : ℕ) ^ (k + 1) = 2 * 2 ^ k := by ring
                have := hLen k (by omega)
                have hre : probedQualities
                    (FsEvent.create (FPath.p1temp ((low + high) / 2)) ::
                      FsEvent.remove (FPath.p1temp ((low + high) / 2)) :: delta') =
                    (low + high) / 2 :: probedQualities delta' := by
                  simp [probedQualities]
                rw [hre]
                simp only [List.length_cons]
                omega
          · have hre : probedQualities
                (FsEvent.create (FPath.p1temp ((low + high) / 2)) ::
                  FsEvent.remove (FPath.p1temp ((low + high) / 2)) :: delta') =
                (low + high) / 2 :: probedQualities delta' := by
              simp [probedQualities]
            rw [hre]
            rcases hDisj with ⟨hb, hinf⟩ | ⟨q, hb, hq, hmem, hmax⟩
            · refine Or.inl ⟨hb, ?_⟩
              intro q2 hq2
              rcases List.mem_cons.mp hq2 with hq2 | hq2
              · subst hq2
                exact hsz
              · exact hinf q2 hq2
            · refine Or.inr ⟨q, hb, hq, List.mem_cons_of_mem _ hmem, ?_⟩
              intro q2 hq2 hfq2
              rcases List.mem_cons.mp hq2 with hq2 | hq2
              · subst hq2
                exact absurd hfq2 hsz
              · exact hmax q2 hq2 hfq2

/-- Invariants of the Phase-1 loop, with no assumption on probe success:
the retained best always has a recorded size at or below the target and its
probe file present on disk (as WEBP, with the recorded size); the only
`p1temp` file on disk at exit is the retained best's; and records at
non-`p1temp` paths are untouched. -/
theorem phase1_inv (env : Env) :
    ∀ fuel low high best fs r b fs',
      phase1Loop env fuel low high best fs = some (r, b, fs') →
      (∀ q s, best = some (q, s) → q < low ∧ s ≤ env.target ∧
        fs.exists? (FPath.p1temp q) = true ∧ fs.size (FPath.p1temp q) = s ∧
        fs.fmtOf (FPath.p1temp q) = some Fmt.webp) →
      (∀ rec ∈ fs.files, (∃ qq, rec.path = FPath.p1temp qq) →
        ∃ qb sb, best = some (qb, sb) ∧ rec.path = FPath.p1temp qb) →
      (∀ q s, b = some (q, s) → s ≤ env.target ∧
        fs'.exists? (FPath.p1temp q) = true ∧ fs'.size (FPath.p1temp q) = s ∧
        fs'.fmtOf (FPath.p1temp q) = some Fmt.webp) ∧
      (∀ rec ∈ fs'.files, (∃ qq, rec.path = FPath.p1temp qq) →
        ∃ qb sb, b = some (qb, sb) ∧ rec.path = FPath.p1temp qb) ∧
      (∀ rec ∈ fs'.files, (∀ qq, rec.path ≠ FPath.p1temp qq) → rec ∈ fs.files) := by
  intro fuel
  induction fuel with
  | zero =>
      intro low high best fs r b fs' heq hbest hfiles
      by_cases hlh : low ≤ high
      · simp [phase1Loop, hlh] at heq
      · simp only [phase1Loop, if_neg hlh, Option.some.injEq, Prod.mk.injEq] at heq
        obtain ⟨-, hb, hfs⟩ := heq
        subst hb
        subst hfs
        exact ⟨fun q s hq => ⟨(hbest q s hq).2.1, (hbest q s hq).2.2.1,
          (hbest q s hq).2.2.2.1, (hbest q s hq).2.2.2.2⟩, hfiles,
          fun rec h _ => h⟩
  | succ m ih =>
      intro low high best fs r b fs' heq hbest hfiles
      by_cases hlh : low ≤ high
      case neg =>
        simp only [phase1Loop, if_neg hlh, Option.some.injEq, Prod.mk.injEq] at heq
        obtain ⟨-, hb, hfs⟩ := heq
        subst hb
        subst hfs
        exact ⟨fun q s hq => ⟨(hbest q s hq).2.1, (hbest q s hq).2.2.1,
          (hbest q s hq).2.2.2.1, (hbest q s hq).2.2.2.2⟩, hfiles,
          fun rec h _ => h⟩
      case pos =>
        simp only [phase1Loop, if_pos hlh] at heq
        have hm1 : low ≤ (low + high) / 2 := by omega
        cases henc : env.p1enc ((low + high) / 2) with
        | none =>
            simp only [henc, Option.some.injEq, Prod.mk.injEq] at heq
            obtain ⟨-, hb, hfs⟩ := heq
            subst hb
            subst hfs
            refine ⟨?_, ?_, ?_⟩
            · intro q s hq
              obtain ⟨hql, hst, hex, hsz2, hfm⟩ := hbest q s hq
              have hne : ¬ FPath.p1temp ((low + high) / 2) = FPath.p1temp q := by
                simp only [FPath.p1temp.injEq]
                omega
              exact ⟨hst, by rw [exists?_removeIfExists_ne fs hne]; exact hex,
                by rw [size_removeIfExists_ne fs hne]; exact hsz2,
                by rw [fmtOf_removeIfExists_ne fs hne]; exact hfm⟩
            · intro rec hrec hqq
              exact hfiles rec (mem_files_removeIfExists hrec) hqq
            · intro rec hrec _
              exact mem_files_removeIfExists hrec
        | some sz =>
            simp only [henc] at heq
            by_cases hsz : sz ≤ env.target
            · rw [if_pos hsz] at heq
              -- the state passed to the recursive call
              rcases hbet : best with _ | ⟨qold, sold⟩
              · simp only [hbet] at heq
                have := ih ((low + high) / 2 + 1) high
                  (some ((low + high) / 2, sz))
                  (fs.create (FPath.p1temp ((low + high) / 2)) sz Fmt.webp)
                  r b fs' heq ?_ ?_
                · refine ⟨this.1, this.2.1, ?_⟩
                  intro rec hrec hqq
                  have := this.2.2 rec hrec hqq
                  rcases mem_files_create this with hr | hr
                  · exact absurd (by rw [hr]) (hqq ((low + high) / 2))
                  · exact hr.1
                · intro q s hq
                  simp only [Option.some.injEq, Prod.mk.injEq] at hq
                  obtain ⟨hq1, hq2⟩ := hq
                  subst hq1
                  subst hq2
                  exact ⟨by omega, hsz, exists?_create_self fs _ _ _,
                    size_create_self fs _ _ _, fmtOf_create_self fs _ _ _⟩
                · intro rec hrec hqq
                  rcases mem_files_create hrec with hr | hr
                  · exact ⟨(low + high) / 2, sz, rfl, by rw [hr]⟩
                  · obtain ⟨qb, sb, hb, -⟩ := hfiles rec hr.1 hqq
                    simp [hbet] at hb
              · simp only [hbet] at heq
                obtain ⟨hql, hst, hex, hszo, hfm⟩ := hbest qold sold hbet
                have hexc : (fs.create (FPath.p1temp ((low + high) / 2)) sz
                    Fmt.webp).exists? (FPath.p1temp qold) = true := by
                  have hne : ¬ FPath.p1temp ((low + high) / 2) =
                      FPath.p1temp qold := by
                    simp only [FPath.p1temp.injEq]
                    omega
                  rw [exists?_create_ne fs sz Fmt.webp hne]
                  exact hex
                rw [if_pos hexc] at heq
                have := ih ((low + high) / 2 + 1) high
                  (some ((low + high) / 2, sz))
                  ((fs.create (FPath.p1temp ((low + high) / 2)) sz
                    Fmt.webp).remove (FPath.p1temp qold))
                  r b fs' heq ?_ ?_
                · refine ⟨this.1, this.2.1, ?_⟩
                  intro rec hrec hqq
                  have hmem := this.2.2 rec hrec hqq
                  have hmem2 := mem_files_remove hmem
                  rcases mem_files_create hmem2.1 with hr | hr
                  · exact absurd (by rw [hr]) (hqq ((low + high) / 2))
                  · exact hr.1
                · intro q s hq
                  simp only [Option.some.injEq, Prod.mk.injEq] at hq
                  obtain ⟨hq1, hq2⟩ := hq
                  subst hq1
                  subst hq2
                  have hne : ¬ FPath.p1temp qold =
                      FPath.p1temp ((low + high) / 2) := by
                    simp only [FPath.p1temp.injEq]
                    omega
                  refine ⟨by omega, hsz, ?_, ?_, ?_⟩
                  · rw [exists?_remove_ne _ hne]
                    exact exists?_create_self fs _ _ _
                  · rw [size_remove_ne _ hne]
                    exact size_create_self fs _ _ _
                  · rw [fmtOf_remove_ne _ hne]
                    exact fmtOf_create_self fs _ _ _
                · intro rec hrec hqq
                  have hmem2 := mem_files_remove hrec
                  rcases mem_files_create hmem2.1 with hr | hr
                  · exact ⟨(low + high) / 2, sz, rfl, by rw [hr]⟩
                  · obtain ⟨qb, sb, hb, hpath⟩ := hfiles rec hr.1 hqq
                    rw [hbet] at hb
                    simp only [Option.some.injEq, Prod.mk.injEq] at hb
                    exact absurd (hpath.trans (by rw [hb.1])) hmem2.2
            · rw [if_neg hsz] at heq
              have := ih low ((low + high) / 2 - 1) best
                ((fs.create (FPath.p1temp ((low + high) / 2)) sz
                  Fmt.webp).remove (FPath.p1temp ((low + high) / 2)))
                r b fs' heq ?_ ?_
              · refine ⟨this.1, this.2.1, ?_⟩
                intro rec hrec hqq
                have hmem := this.2.2 rec hrec hqq
                have hmem2 := mem_files_remove hmem
                rcases mem_files_create hmem2.1 with hr | hr
                · exact absurd (by rw [hr]) (hqq ((low + high) / 2))
                · exact hr.1
              · intro q s hq
                obtain ⟨hql, hst, hex, hszo, hfm⟩ := hbest q s hq
                have hne : ¬ FPath.p1temp ((low + high) / 2) =
                    FPath.p1temp q := by
                  simp only [FPath.p1temp.injEq]
                  omega
                refine ⟨hql, hst, ?_, ?_, ?_⟩
                · rw [exists?_remove_ne _ hne, exists?_create_ne fs sz Fmt.webp hne]
                  exact hex
                · rw [size_remove_ne _ hne, size_create_ne fs sz Fmt.webp hne]
                  exact hszo
                · rw [fmtOf_remove_ne _ hne, fmtOf_create_ne fs sz Fmt.webp hne]
                  exact hfm
              · intro rec hrec hqq
                have hmem2 := mem_files_remove hrec
                rcases mem_files_create hmem2.1 with hr | hr
                · exact absurd (by rw [hr]) hmem2.2
                · exact hfiles rec hr.1 hqq

/-- The Phase-1 loop raises only the probe-encode exception of line 296,
and only because some quality in the current search interval failed to
encode. -/
theorem phase1_err (env : Env) :
    ∀ fuel low high best fs e b fs',
      phase1Loop env fuel low high best fs = some (Except.error e, b, fs') →
      e = CErr.probeError ∧ ∃ q, low ≤ q ∧ q ≤ high ∧ env.p1enc q = none := by
  intro fuel
  induction fuel with
  | zero =>
      intro low high best fs e b fs' heq
      by_cases hlh : low ≤ high
      · simp [phase1Loop, hlh] at heq
      · simp [phase1Loop, hlh] at heq
  | succ m ih =>
      intro low high best fs e b fs' heq
      by_cases hlh : low ≤ high
      case neg => simp [phase1Loop, hlh] at heq
      case pos =>
        simp only [phase1Loop, if_pos hlh] at heq
        have hm1 : low ≤ (low + high) / 2 := by omega
        have hm2 : (low + high) / 2 ≤ high := by omega
        cases henc : env.p1enc ((low + high) / 2) with
        | none =>
            simp only [henc, Option.some.injEq, Prod.mk.injEq,
              Except.error.injEq] at heq
            exact ⟨heq.1.symm, (low + high) / 2, hm1, hm2, henc⟩
        | some sz =>
            simp only [henc] at heq
            by_cases hsz : sz ≤ env.target
            · rw [if_pos hsz] at heq
              obtain ⟨he, q, h1, h2, h3⟩ := ih _ _ _ _ _ _ _ heq
              exact ⟨he, q, by omega, h2, h3⟩
            · rw [if_neg hsz] at heq
              obtain ⟨he, q, h1, h2, h3⟩ := ih _ _ _ _ _ _ _ heq
              exact ⟨he, q, h1, by omega, h3⟩

theorem destWrites_append (a b : List FsEvent) (d : FPath) :
    destWrites (a ++ b) d = destWrites a d ++ destWrites b d := by
  simp [destWrites, List.filter_append]

theorem destWrites_create_self (d : FPath) :
    destWrites [FsEvent.create d] d = [FsEvent.create d] := by
  simp [destWrites]

theorem destWrites_create_ne {p d : FPath} (h : ¬ p = d) :
    destWrites [FsEvent.create p] d = [] := by
  simp [destWrites, h]

theorem destWrites_remove (p d : FPath) :
    destWrites [FsEvent.remove p] d = [] := by
  simp [destWrites]

theorem destWrites_rename_self (s d : FPath) :
    destWrites [FsEvent.rename s d] d = [FsEvent.rename s d] := by
  simp [destWrites]

theorem destWrites_rename_ne {s d2 d : FPath} (h : ¬ d2 = d) :
    destWrites [FsEvent.rename s d2] d = [] := by
  simp [destWrites, h]

theorem destWrites_ite_remove (fs : Fs) (p d : FPath) :
    destWrites (if fs.exists? p then [FsEvent.remove p] else []) d = [] := by
  split <;> simp [destWrites]

theorem p2temp_ne_out {out : FPath} (i : ℕ)
    (hout : out = FPath.output ∨ out = FPath.webpSibling) :
    ¬ FPath.p2temp i = out := by
  rcases hout with h | h <;> subst h <;> intro hc <;> cases hc

theorem p3temp_ne_out {out : FPath}
    (hout : out = FPath.output ∨ out = FPath.webpSibling) :
    ¬ FPath.p3temp = out := by
  rcases hout with h | h <;> subst h <;> intro hc <;> cases hc

/-- One step of the Phase-2 scale recurrence commutes with re-indexing. -/
theorem p2scaleGen_shift (s : ℚ) :
    ∀ k, p2scaleGen s (k + 1) = p2scaleGen (max (s * (7 / 10)) (1 / 20)) k := by
  intro k
  induction k with
  | zero => rfl
  | succ n ih =>
      show max (p2scaleGen s (n + 1) * (7 / 10)) (1 / 20) =
        max (p2scaleGen (max (s * (7 / 10)) (1 / 20)) n * (7 / 10)) (1 / 20)
      rw [ih]

theorem p2dimsGen_shift (env : Env) (s : ℚ) (k : ℕ) :
    p2dimsGen env s (k + 1) = p2dimsGen env (max (s * (7 / 10)) (1 / 20)) k := by
  simp only [p2dimsGen, p2scaleGen_shift]

/-- Result-conditioned shape of a successful Phase-2 exit: the returned
path is the loop's output path, it holds a WEBP file, no new file other
than the output remains, and the only write to the output path in the
loop's event trace is the single rename of the accepted temp file. -/
theorem p2_result (env : Env) (out : FPath)
    (hout : out = FPath.output ∨ out = FPath.webpSibling) :
    ∀ r scale i fs p fs2,
      phase2Loop env out scale i r fs = (Except.ok (some p), fs2) →
      p = out ∧ fs2.fmtOf out = some Fmt.webp ∧
      (∀ rec ∈ fs2.files, rec ∈ fs.files ∨ rec.path = out) ∧
      ∃ delta, fs2.events = fs.events ++ delta ∧
        ∃ src, destWrites delta out = [FsEvent.rename src out] := by
  intro r
  induction r with
  | zero =>
      intro scale i fs p fs2 heq
      simp [phase2Loop] at heq
  | succ n ih =>
      intro scale i fs p fs2 heq
      simp only [phase2Loop] at heq
      cases henc : env.p2enc ((Rat.floor ((env.width : ℚ) * scale)).toNat)
          ((Rat.floor ((env.height : ℚ) * scale)).toNat) with
      | none => simp [henc] at heq
      | some sz =>
          simp only [henc] at heq
          by_cases hsz : (sz : ℚ) ≤ (env.target : ℚ) + env.tol
          · rw [if_pos hsz] at heq
            simp only [Prod.mk.injEq, Except.ok.injEq, Option.some.injEq] at heq
            obtain ⟨hp, hfs⟩ := heq
            subst hp
            subst hfs
            have hne : ¬ FPath.p2temp i = out := p2temp_ne_out i hout
            refine ⟨rfl, ?_, ?_, ?_⟩
            · apply fmtOf_rename_dst
              rw [fmtOf_removeIfExists_ne _ (fun hc => hne hc.symm)]
              exact fmtOf_create_self fs _ _ _
            · intro rec hrec
              rcases mem_files_rename hrec with hr | hr
              · exact Or.inr hr
              · have := mem_files_removeIfExists hr.1
                rcases mem_files_create this with h2 | h2
                · exact absurd (by rw [h2]) hr.2
                · exact Or.inl h2.1
            · refine ⟨[FsEvent.create (FPath.p2temp i)] ++
                (if (fs.create (FPath.p2temp i) sz Fmt.webp).exists? out then
                  [FsEvent.remove out] else []) ++
                [FsEvent.rename (FPath.p2temp i) out], ?_, ?_⟩
              · simp [Fs.rename, Fs.create, events_removeIfExists]
              · rw [destWrites_append, destWrites_append,
                  destWrites_create_ne hne, destWrites_ite_remove,
                  destWrites_rename_self]
                exact ⟨FPath.p2temp i, rfl⟩
          · rw [if_neg hsz] at heq
            obtain ⟨hp, hfmt, hfiles, delta, hev, src, hdw⟩ :=
              ih _ _ _ _ _ heq
            refine ⟨hp, hfmt, ?_, ?_⟩
            · intro rec hrec
              rcases hfiles rec hrec with hr | hr
              · have h2 := mem_files_remove hr
                rcases mem_files_create h2.1 with h3 | h3
                · exact absurd (by rw [h3]) h2.2
                · exact Or.inl h3.1
              · exact Or.inr hr
            · refine ⟨[FsEvent.create (FPath.p2temp i)] ++
                [FsEvent.remove (FPath.p2temp i)] ++ delta, ?_, ?_⟩
              · rw [hev]
                simp [Fs.create, Fs.remove]
              · rw [destWrites_append, destWrites_append,
                  destWrites_create_ne (p2temp_ne_out i hout),
                  destWrites_remove, hdw]
                exact ⟨src, rfl⟩

/-- Result-conditioned shape of a Phase-2 exhaustion exit: the file system
gains no files and the output path is never written. -/
theorem p2_result_none (env : Env) (out : FPath)
    (hout : out = FPath.output ∨ out = FPath.webpSibling) :
    ∀ r scale i fs fs2,
      phase2Loop env out scale i r fs = (Except.ok none, fs2) →
      (∀ rec ∈ fs2.files, rec ∈ fs.files) ∧
      ∃ delta, fs2.events = fs.events ++ delta ∧ destWrites delta out = [] := by
  intro r
  induction r with
  | zero =>
      intro scale i fs fs2 heq
      simp only [phase2Loop, Prod.mk.injEq] at heq
      rw [← heq.2]
      exact ⟨fun rec h => h, [], by simp, rfl⟩
  | succ n ih =>
      intro scale i fs fs2 heq
      simp only [phase2Loop] at heq
      cases henc : env.p2enc ((Rat.floor ((env.width : ℚ) * scale)).toNat)
          ((Rat.floor ((env.height : ℚ) * scale)).toNat) with
      | none => simp [henc] at heq
      | some sz =>
          simp only [henc] at heq
          by_cases hsz : (sz : ℚ) ≤ (env.target : ℚ) + env.tol
          · rw [if_pos hsz] at heq
            simp at heq
          · rw [if_neg hsz] at heq
            obtain ⟨hfiles, delta, hev, hdw⟩ := ih _ _ _ _ heq
            refine ⟨?_, ?_⟩
            · intro rec hrec
              have hr := hfiles rec hrec
              have h2 := mem_files_remove hr
              rcases mem_files_create h2.1 with h3 | h3
              · exact absurd (by rw [h3]) h2.2
              · exact h3.1
            · refine ⟨[FsEvent.create (FPath.p2temp i)] ++
                [FsEvent.remove (FPath.p2temp i)] ++ delta, ?_, ?_⟩
              · rw [hev]
                simp [Fs.create, Fs.remove]
              · rw [destWrites_append, destWrites_append,
                  destWrites_create_ne (p2temp_ne_out i hout),
                  destWrites_remove, hdw]
                rfl

/-- If every one of the `r` remaining Phase-2 iterations would produce a
size above `target + tolerance` (sizes taken along the 0.7-shrink,
0.05-clamped scale sequence), the loop exhausts and falls through. -/
theorem p2_run_none (env : Env) (out : FPath) :
    ∀ r s i fs,
      (∀ k, k < r → ∃ sz,
        env.p2enc (p2dimsGen env s k).1 (p2dimsGen env s k).2 = some sz ∧
        ¬ ((sz : ℚ) ≤ (env.target : ℚ) + env.tol)) →
      ∃ fs2, phase2Loop env out s i r fs = (Except.ok none, fs2) := by
  intro r
  induction r with
  | zero =>
      intro s i fs _
      exact ⟨fs, rfl⟩
  | succ n ih =>
      intro s i fs hall
      obtain ⟨sz, henc, hsz⟩ := hall 0 (by omega)
      have henc' : env.p2enc ((Rat.floor ((env.width : ℚ) * s)).toNat)
          ((Rat.floor ((env.height : ℚ) * s)).toNat) = some sz := henc
      obtain ⟨fs2, hres⟩ := ih (max (s * (7 / 10)) (1 / 20)) (i + 1)
        ((fs.create (FPath.p2temp i) sz Fmt.webp).remove (FPath.p2temp i))
        (by
          intro k hk
          obtain ⟨szk, h1, h2⟩ := hall (k + 1) (by omega)
          rw [p2dimsGen_shift] at h1
          exact ⟨szk, h1, h2⟩)
      refine ⟨fs2, ?_⟩
      simp only [phase2Loop, henc']
      rw [if_neg hsz]
      exact hres

/-- If the `k`-th Phase-2 iteration (0-based, `k < r`) is the first whose
encode lands at or below `target + tolerance`, the loop accepts there: it
renames that temp file onto the output path and returns the output path,
whose measured size is that probe's size. -/
theorem p2_run_some (env : Env) (out : FPath)
    (hout : out = FPath.output ∨ out = FPath.webpSibling) :
    ∀ r s i fs k sz, k < r →
      env.p2enc (p2dimsGen env s k).1 (p2dimsGen env s k).2 = some sz →
      ((sz : ℚ) ≤ (env.target : ℚ) + env.tol) →
      (∀ j, j < k → ∃ szj,
        env.p2enc (p2dimsGen env s j).1 (p2dimsGen env s j).2 = some szj ∧
        ¬ ((szj : ℚ) ≤ (env.target : ℚ) + env.tol)) →
      ∃ fs2, phase2Loop env out s i r fs = (Except.ok (some out), fs2) ∧
        fs2.size out = sz := by
  intro r
  induction r with
  | zero =>
      intro s i fs k sz hk
      omega
  | succ n ih =>
      intro s i fs k sz hk henc hsz hmin
      match k with
      | 0 =>
          have henc' : env.p2enc ((Rat.floor ((env.width : ℚ) * s)).toNat)
              ((Rat.floor ((env.height : ℚ) * s)).toNat) = some sz := henc
          refine ⟨((fs.create (FPath.p2temp i) sz Fmt.webp).removeIfExists
            out).rename (FPath.p2temp i) out, ?_, ?_⟩
          · simp only [phase2Loop, henc']
            rw [if_pos hsz]
          · rw [size_rename_dst,
              size_removeIfExists_ne _ (fun hc => (p2temp_ne_out i hout) hc.symm)]
            exact size_create_self fs _ _ _
      | j + 1 =>
          obtain ⟨sz0, henc0, hsz0⟩ := hmin 0 (by omega)
          have henc0' : env.p2enc ((Rat.floor ((env.width : ℚ) * s)).toNat)
              ((Rat.floor ((env.height : ℚ) * s)).toNat) = some sz0 := henc0
          obtain ⟨fs2, hres, hsize⟩ := ih (max (s * (7 / 10)) (1 / 20))
            (i + 1)
            ((fs.create (FPath.p2temp i) sz0 Fmt.webp).remove (FPath.p2temp i))
            j sz (by omega)
            (by rw [← p2dimsGen_shift]; exact henc) hsz
            (by
              intro j2 hj2
              obtain ⟨szj, h1, h2⟩ := hmin (j2 + 1) (by omega)
              rw [p2dimsGen_shift] at h1
              exact ⟨szj, h1, h2⟩)
          refine ⟨fs2, ?_, hsize⟩
          simp only [phase2Loop, henc0']
          rw [if_neg hsz0]
          exact hres

/-- Evaluation of Phase 3 (lines 413-451): on a successful encode the
result is accepted unconditionally — whatever size the codec produced is
renamed onto the output path and returned, with no size check; a failing
encode raises the line-440 exception. -/
theorem phase3_eval (env : Env) (out : FPath) (fs : Fs)
    (hout : out = FPath.output ∨ out = FPath.webpSibling) :
    (∀ sz, env.p2enc (max 10 (Rat.floor ((env.width : ℚ) * (2 / 10))).toNat)
        (max 10 (Rat.floor ((env.height : ℚ) * (2 / 10))).toNat) = some sz →
      ∃ fs2, phase3 env out fs = (Except.ok (out, Phase.p3), fs2) ∧
        fs2.size out = sz ∧ fs2.fmtOf out = some Fmt.webp ∧
        (∀ rec ∈ fs2.files, rec ∈ fs.files ∨ rec.path = out) ∧
        ∃ delta, fs2.events = fs.events ++ delta ∧
          destWrites delta out = [FsEvent.rename FPath.p3temp out]) ∧
    (env.p2enc (max 10 (Rat.floor ((env.width : ℚ) * (2 / 10))).toNat)
        (max 10 (Rat.floor ((env.height : ℚ) * (2 / 10))).toNat) = none →
      ∃ fs2, phase3 env out fs = (Except.error CErr.finalError, fs2) ∧
        ∀ rec ∈ fs2.files, rec ∈ fs.files) := by
  have hne3 : ¬ FPath.p3temp = out := p3temp_ne_out hout
  constructor
  · intro sz henc
    refine ⟨(((fs.removeIfExists (FPath.p2temp 10)).create FPath.p3temp sz
      Fmt.webp).removeIfExists out).rename FPath.p3temp out, ?_, ?_, ?_, ?_, ?_⟩
    · simp only [phase3, henc]
    · rw [size_rename_dst,
        size_removeIfExists_ne _ (fun hc => hne3 hc.symm)]
      exact size_create_self _ _ _ _
    · apply fmtOf_rename_dst
      rw [fmtOf_removeIfExists_ne _ (fun hc => hne3 hc.symm)]
      exact fmtOf_create_self _ _ _ _
    · intro rec hrec
      rcases mem_files_rename hrec with hr | hr
      · exact Or.inr hr
      · have h2 := mem_files_removeIfExists hr.1
        rcases mem_files_create h2 with h3 | h3
        · exact absurd (by rw [h3]) hr.2
        · exact Or.inl (mem_files_removeIfExists h3.1)
    · refine ⟨(if fs.exists? (FPath.p2temp 10) then
          [FsEvent.remove (FPath.p2temp 10)] else []) ++
        ([FsEvent.create FPath.p3temp] ++
          ((if ((fs.removeIfExists (FPath.p2temp 10)).create FPath.p3temp sz
              Fmt.webp).exists? out then [FsEvent.remove out] else []) ++
            [FsEvent.rename FPath.p3temp out])), ?_, ?_⟩
      · simp [Fs.rename, Fs.create, events_removeIfExists, List.append_assoc]
      · rw [destWrites_append, destWrites_append, destWrites_append,
          destWrites_ite_remove, destWrites_create_ne hne3,
          destWrites_ite_remove, destWrites_rename_self]
        rfl
  · intro henc
    refine ⟨((fs.removeIfExists (FPath.p2temp 10)).removeIfExists
      FPath.p3temp), ?_, ?_⟩
    · simp only [phase3, henc]
    · intro rec hrec
      exact mem_files_removeIfExists (mem_files_removeIfExists hrec)

theorem afterP1_none (env : Env) (fs : Fs) :
    afterP1 env none fs = (false, FPath.output, fs) := rfl

/-- Evaluation of lines 317-343 when the requested output path ends in
`.webp`: the best probe file is renamed directly onto the output path (the
only write to it), and acceptance compares the best probe's own size
against `target + tolerance`. -/
theorem afterP1_webp (env : Env) (q s : ℕ) (fs : Fs)
    (hweb : env.outputEndsWebp = true)
    (hex : fs.exists? (FPath.p1temp q) = true)
    (hsz : fs.size (FPath.p1temp q) = s)
    (hfmt : fs.fmtOf (FPath.p1temp q) = some Fmt.webp) :
    ∃ fsC, afterP1 env (some (q, s)) fs =
      (decide ((s : ℚ) ≤ (env.target : ℚ) + env.tol), FPath.output, fsC) ∧
      fsC.size FPath.output = s ∧ fsC.fmtOf FPath.output = some Fmt.webp ∧
      (∀ rec ∈ fsC.files, rec.path = FPath.output ∨
        (rec ∈ fs.files ∧ rec.path ≠ FPath.p1temp q)) ∧
      ∃ delta, fsC.events = fs.events ++ delta ∧
        destWrites delta FPath.output =
          [FsEvent.rename (FPath.p1temp q) FPath.output] := by
  have hwo : env.webpOutput = FPath.output := by
    simp [Env.webpOutput, hweb]
  have hne : ¬ FPath.output = FPath.p1temp q := by
    intro hc
    cases hc
  have hsize : ((fs.removeIfExists FPath.output).rename (FPath.p1temp q)
      FPath.output).size FPath.output = s := by
    rw [size_rename_dst, size_removeIfExists_ne _ hne]
    exact hsz
  refine ⟨(fs.removeIfExists FPath.output).rename (FPath.p1temp q)
    FPath.output, ?_, hsize, ?_, ?_, ?_⟩
  · simp only [afterP1, hex, if_true, hwo, hweb, hsize]
  · apply fmtOf_rename_dst
    rw [fmtOf_removeIfExists_ne _ hne]
    exact hfmt
  · intro rec hrec
    rcases mem_files_rename hrec with hr | hr
    · exact Or.inl hr
    · exact Or.inr ⟨mem_files_removeIfExists hr.1, hr.2⟩
  · refine ⟨(if fs.exists? FPath.output then [FsEvent.remove FPath.output]
      else []) ++ [FsEvent.rename (FPath.p1temp q) FPath.output], ?_, ?_⟩
    · simp [Fs.rename, events_removeIfExists, List.append_assoc]
    · rw [destWrites_append, destWrites_ite_remove, destWrites_rename_self]
      rfl

/-- Evaluation of lines 317-343 when the output path is not `.webp` and the
container re-encode of lines 327-328 succeeds with `csz` bytes: the
destination is written directly by the codec (`img.save(output_path)`, a
`create`, not a rename), the WEBP file is then deleted, and acceptance
compares the re-encoded size `csz` against `target + tolerance`. -/
theorem afterP1_conv_ok (env : Env) (q s csz : ℕ) (fs : Fs)
    (hweb : env.outputEndsWebp = false)
    (hconv : env.convEnc = some csz)
    (hex : fs.exists? (FPath.p1temp q) = true)
    (_hsz : fs.size (FPath.p1temp q) = s) :
    ∃ fsC, afterP1 env (some (q, s)) fs =
      (decide ((csz : ℚ) ≤ (env.target : ℚ) + env.tol), FPath.output, fsC) ∧
      fsC.size FPath.output = csz ∧
      (∀ rec ∈ fsC.files, rec.path = FPath.output ∨
        rec.path = FPath.webpSibling ∨
        (rec ∈ fs.files ∧ rec.path ≠ FPath.p1temp q)) ∧
      ∃ delta, fsC.events = fs.events ++ delta ∧
        destWrites delta FPath.output = [FsEvent.create FPath.output] := by
  have hwo : env.webpOutput = FPath.webpSibling := by
    simp [Env.webpOutput, hweb]
  have hnews : ¬ FPath.webpSibling = FPath.output := by
    intro hc
    cases hc
  have hsize : ((((fs.removeIfExists FPath.webpSibling).rename
      (FPath.p1temp q) FPath.webpSibling).create FPath.output csz
        Fmt.other).remove FPath.webpSibling).size FPath.output = csz := by
    rw [size_remove_ne _ hnews]
    exact size_create_self _ _ _ _
  refine ⟨(((fs.removeIfExists FPath.webpSibling).rename (FPath.p1temp q)
    FPath.webpSibling).create FPath.output csz Fmt.other).remove
      FPath.webpSibling, ?_, hsize, ?_, ?_⟩
  · simp only [afterP1, hex, if_true, hwo, hweb, hconv, Bool.false_eq_true,
      if_false, hsize]
  · intro rec hrec
    have h1 := mem_files_remove hrec
    rcases mem_files_create h1.1 with hr | hr
    · exact Or.inl (by rw [hr])
    · rcases mem_files_rename hr.1 with hr2 | hr2
      · exact Or.inr (Or.inl hr2)
      · exact Or.inr (Or.inr ⟨mem_files_removeIfExists hr2.1, hr2.2⟩)
  · refine ⟨(if fs.exists? FPath.webpSibling then
        [FsEvent.remove FPath.webpSibling] else []) ++
      ([FsEvent.rename (FPath.p1temp q) FPath.webpSibling] ++
        ([FsEvent.create FPath.output] ++
          [FsEvent.remove FPath.webpSibling])), ?_, ?_⟩
    · simp [Fs.rename, Fs.create, Fs.remove, events_removeIfExists,
        List.append_assoc]
    · rw [destWrites_append, destWrites_append, destWrites_append,
        destWrites_ite_remove, destWrites_rename_ne hnews,
        destWrites_create_self, destWrites_remove]
      rfl

/-- Evaluation of lines 317-343 when the output path is not `.webp` and the
container re-encode throws: the code keeps the WEBP file and reassigns the
output-path variable to the `.webp` sibling (line 335), against which all
later phases then operate. -/
theorem afterP1_conv_fail (env : Env) (q s : ℕ) (fs : Fs)
    (hweb : env.outputEndsWebp = false)
    (hconv : env.convEnc = none)
    (hex : fs.exists? (FPath.p1temp q) = true)
    (hsz : fs.size (FPath.p1temp q) = s)
    (hfmt : fs.fmtOf (FPath.p1temp q) = some Fmt.webp) :
    ∃ fsC, afterP1 env (some (q, s)) fs =
      (decide ((s : ℚ) ≤ (env.target : ℚ) + env.tol), FPath.webpSibling, fsC) ∧
      fsC.size FPath.webpSibling = s ∧
      fsC.fmtOf FPath.webpSibling = some Fmt.webp ∧
      (∀ rec ∈ fsC.files, rec.path = FPath.webpSibling ∨
        (rec ∈ fs.files ∧ rec.path ≠ FPath.p1temp q)) := by
  have hwo : env.webpOutput = FPath.webpSibling := by
    simp [Env.webpOutput, hweb]
  have hne : ¬ FPath.webpSibling = FPath.p1temp q := by
    intro hc
    cases hc
  have hsize : ((fs.removeIfExists FPath.webpSibling).rename (FPath.p1temp q)
      FPath.webpSibling).size FPath.webpSibling = s := by
    rw [size_rename_dst, size_removeIfExists_ne _ hne]
    exact hsz
  refine ⟨(fs.removeIfExists FPath.webpSibling).rename (FPath.p1temp q)
    FPath.webpSibling, ?_, hsize, ?_, ?_⟩
  · simp only [afterP1, hex, if_true, hwo, hweb, hconv, Bool.false_eq_true,
      if_false, hsize]
  · apply fmtOf_rename_dst
    rw [fmtOf_removeIfExists_ne _ hne]
    exact hfmt
  · intro rec hrec
    rcases mem_files_rename hrec with hr | hr
    · exact Or.inl hr
    · exact Or.inr ⟨mem_files_removeIfExists hr.1, hr.2⟩

theorem run_link (env : Env) (h1 : env.inputExists = true)
    (h2 : env.isValidImage = true) (h3 : env.scaleFactor = none) :
    compressToSize env = finalizeRun (runBody env env.inputSize env.fs0) := by
  simp [compressToSize, h1, h2, h3]

/-- Splits a pre-scale-free request into its Phase-1 outcome and the
decision made at lines 317-343, assuming all Phase-1 probes encode
(`p1enc` total) and no pre-existing file sits at a Phase-1 temp path. -/
theorem run_split (env : Env) (f : ℕ → ℕ)
    (henc : ∀ q, env.p1enc q = some (f q))
    (h1 : env.inputExists = true) (h2 : env.isValidImage = true)
    (h3 : env.scaleFactor = none)
    (hpre : ∀ rec ∈ env.preexisting, ∀ qq, rec.path ≠ FPath.p1temp qq) :
    ∃ b fs1,
      phase1Loop env 96 1 95 none env.fs0 = some (Except.ok (), b, fs1) ∧
      p1best env = b ∧
      (∀ q s, b = some (q, s) → s = f q ∧ s ≤ env.target ∧
        fs1.exists? (FPath.p1temp q) = true ∧ fs1.size (FPath.p1temp q) = s ∧
        fs1.fmtOf (FPath.p1temp q) = some Fmt.webp) ∧
      (∀ rec ∈ fs1.files, (∃ qq, rec.path = FPath.p1temp qq) →
        ∃ qb sb, b = some (qb, sb) ∧ rec.path = FPath.p1temp qb) ∧
      (∀ rec ∈ fs1.files, (∀ qq, rec.path ≠ FPath.p1temp qq) →
        rec ∈ env.preexisting) ∧
      (∀ e ∈ fs1.events, (∃ q, e = FsEvent.create (FPath.p1temp q)) ∨
        (∃ q, e = FsEvent.remove (FPath.p1temp q))) ∧
      ∀ acc outP fs2, afterP1 env b fs1 = (acc, outP, fs2) →
        compressToSize env =
          (if acc then
            some (Except.ok (outP, Phase.p1),
              fs2.removeIfExists FPath.prescaleTemp)
          else
            some ((phase23 env b env.inputSize outP fs2).1,
              (phase23 env b env.inputSize outP fs2).2.removeIfExists
                FPath.prescaleTemp)) := by
  obtain ⟨b, fs1, delta, hEq, hEv, hShape, hRange, hLen, hDisj⟩ :=
    phase1_char env f henc 96 1 95 none env.fs0 (by omega) (by omega)
  have hinv := phase1_inv env 96 1 95 none env.fs0 _ b fs1 hEq
    (by intro q s h; exact Option.noConfusion h)
    (by
      intro rec hrec hqq
      obtain ⟨qq, hqq⟩ := hqq
      exact absurd hqq (hpre rec hrec qq))
  refine ⟨b, fs1, hEq, ?_, ?_, hinv.2.1, hinv.2.2, ?_, ?_⟩
  · simp [p1best, hEq]
  · intro q s hb
    have hA := hinv.1 q s hb
    rcases hDisj with ⟨hbn, -⟩ | ⟨q', hb', hfeas, -, -⟩
    · rw [hb] at hbn
      exact Option.noConfusion hbn
    · rw [hb'] at hb
      simp only [Option.some.injEq, Prod.mk.injEq] at hb
      obtain ⟨hq, hs⟩ := hb
      subst hq
      exact ⟨hs.symm, hA.1, hA.2.1, hA.2.2.1, hA.2.2.2⟩
  · intro e he
    rw [hEv] at he
    simp only [Env.fs0, List.nil_append] at he
    exact hShape e he
  · intro acc outP fs2 ha
    rw [run_link env h1 h2 h3]
    simp only [runBody, hEq, ha]
    cases acc
    · simp [finalizeRun]
    · simp [finalizeRun]

/-- Lines 345-455 in terms of the request-level projections: the Phase-2
loop starts from the scale `(size_ratio) ** 0.3` clamped at 0.05, where
`size_ratio` is computed from the Phase-1 best size (or the working file's
size when Phase 1 recorded no best). -/
theorem phase23_eval (env : Env) (b : Option (ℕ × ℕ)) (outP : FPath)
    (fs2 : Fs) (hp1b : p1best env = b) :
    phase23 env b env.inputSize outP fs2 =
      (match phase2Loop env outP (max (env.rpow03 (p2ratio env)) (1 / 20))
          1 10 fs2 with
       | (Except.error e, fs') => (Except.error e, fs')
       | (Except.ok (some p), fs') => (Except.ok (p, Phase.p2), fs')
       | (Except.ok none, fs') => phase3 env outP fs') := by
  rcases b with _ | ⟨q, s⟩
  · have hbs : p2baseSize env = env.inputSize := by
      rw [p2baseSize, hp1b]
    simp only [phase23, p2ratio, hbs]
  · have hbs : p2baseSize env = s := by
      rw [p2baseSize, hp1b]
    simp only [phase23, p2ratio, hbs]

theorem finalizeRun_isSome (o : Option (Except CErr (FPath × Phase) × Fs)) :
    (finalizeRun o).isSome = o.isSome := by
  match o with
  | none => rfl
  | some (r, fs) => rfl

theorem runBody_isSome (env : Env) (cs : ℕ) (fs : Fs) :
    (runBody env cs fs).isSome = true := by
  have h := phase1_total env 96 1 95 none fs (by omega) (by omega)
  cases hres : phase1Loop env 96 1 95 none fs with
  | none => rw [hres] at h; simp at h
  | some r =>
      obtain ⟨rr, b, fs1⟩ := r
      cases rr with
      | error e => simp [runBody, hres]
      | ok u =>
          simp only [runBody, hres]
          split <;> simp

/-- C9: every execution of `compress_to_size` concludes — returns or
raises — inside the `try`/`finally` block of lines 261-455 (Phase-1 return
at 343, Phase-2 return at 406, Phase-3 return at 451, or one of the raised
exceptions), because the binary-search loop terminates, Phase 2 is bounded
by 10 iterations, and Phase 3 is straight-line.  Hence the format-dispatch
code after the `finally` clause (lines 457-753: the second JPEG/WEBP
closest-distance search, the PNG color-quantization path, and the
AVIF/WebP fallback) is unreachable on every execution.  In the model,
`none` is the only way to fall past the modelled `try` body, and it never
occurs. -/
theorem c9_dead_code_unreachable (env : Env) :
    (compressToSize env).isSome = true := by
  cases hb1 : env.inputExists with
  | false => simp [compressToSize, hb1]
  | true =>
      cases hb2 : env.isValidImage with
      | false => simp [compressToSize, hb1, hb2]
      | true =>
          cases h3 : env.scaleFactor with
          | none =>
              rw [run_link env hb1 hb2 h3, finalizeRun_isSome]
              exact runBody_isSome env env.inputSize env.fs0
          | some sf =>
              have hcs : compressToSize env =
                  (if sf < 1 / 10 ∨ 1 < sf then
                    some (Except.error CErr.badScaleFactor, env.fs0)
                  else if sf ≠ 1 then
                    match env.prescaleEnc with
                    | none =>
                        some (Except.error CErr.scaleError,
                          env.fs0.removeIfExists FPath.prescaleTemp)
                    | some psz =>
                        finalizeRun (runBody env psz
                          (env.fs0.create FPath.prescaleTemp psz Fmt.jpeg))
                  else finalizeRun (runBody env env.inputSize env.fs0)) := by
                simp [compressToSize, hb1, hb2, h3]
              rw [hcs]
              by_cases h4 : sf < 1 / 10 ∨ 1 < sf
              · rw [if_pos h4]
                rfl
              · rw [if_neg h4]
                by_cases h5 : sf ≠ 1
                · rw [if_pos h5]
                  cases h6 : env.prescaleEnc with
                  | none => rfl
                  | some psz =>
                      rw [finalizeRun_isSome]
                      exact runBody_isSome env psz _
                · rw [if_neg h5, finalizeRun_isSome]
                  exact runBody_isSome env env.inputSize env.fs0

/-- C1: for every request whose Phase-1 probe encodes all succeed (encoded
size `f q` at quality `q`), the Phase-1 quality search over `[1, 95]`
behaves as a standard binary search: the loop reaches its `low > high`
exit (within at most 7 probes), every probe lies in `[1, 95]` with its
measured size `f q`, no best is retained exactly when no probe was
feasible (size at most `targetSizeBytes`), and the retained best is a
feasible probe of maximal quality among all feasible probes — the code
compares each probe against the target (not the tolerance window), records
feasible probes as best-so-far with `low = mid+1`, and otherwise sets
`high = mid-1` (lines 280-315). -/
theorem c1_phase1_binary_search (env : Env) (f : ℕ → ℕ) (fs : Fs)
    (henc : ∀ q, env.p1enc q = some (f q)) :
    ∃ b fs1 delta,
      phase1Loop env 96 1 95 none fs = some (Except.ok (), b, fs1) ∧
      fs1.events = fs.events ++ delta ∧
      (∀ q ∈ probedQualities delta, 1 ≤ q ∧ q ≤ 95) ∧
      (probedQualities delta).length ≤ 7 ∧
      (b = none ↔ ∀ q ∈ probedQualities delta, ¬ f q ≤ env.target) ∧
      (∀ q s, b = some (q, s) → s = f q ∧ s ≤ env.target ∧
        q ∈ probedQualities delta ∧
        ∀ q2 ∈ probedQualities delta, f q2 ≤ env.target → q2 ≤ q) := by
  obtain ⟨b, fs1, delta, hEq, hEv, hShape, hRange, hLen, hDisj⟩ :=
    phase1_char env f henc 96 1 95 none fs (by omega) (by omega)
  refine ⟨b, fs1, delta, hEq, hEv, hRange, hLen 7 (by norm_num), ?_, ?_⟩
  · constructor
    · intro hbn
      rcases hDisj with ⟨-, hinf⟩ | ⟨q, hb, -, -, -⟩
      · exact hinf
      · rw [hbn] at hb
        exact Option.noConfusion hb
    · intro hall
      rcases hDisj with ⟨hb, -⟩ | ⟨q, hb, hfeas, hmem, -⟩
      · exact hb
      · exact absurd hfeas (hall q hmem)
  · intro q s hb
    rcases hDisj with ⟨hbn, -⟩ | ⟨q', hb', hfeas, hmem, hmax⟩
    · rw [hb] at hbn
      exact Option.noConfusion hbn
    · rw [hb'] at hb
      simp only [Option.some.injEq, Prod.mk.injEq] at hb
      obtain ⟨hq, hs⟩ := hb
      subst hq
      exact ⟨hs.symm, hs ▸ hfeas, hmem, hmax⟩

/-- The environment used to witness the Phase-1 binary-search theorem: a
request whose probe at quality `q` encodes to exactly `100 * q` bytes. -/
def envC1 : Env := { baseEnv with p1enc := fun q => some (100 * q) }

/-- Witness: `c1_phase1_binary_search` instantiated at `envC1` with its
hypothesis discharged. -/
theorem c1_witness :
    ∃ b fs1 delta,
      phase1Loop envC1 96 1 95 none envC1.fs0 =
        some (Except.ok (), b, fs1) ∧
      fs1.events = envC1.fs0.events ++ delta ∧
      (∀ q ∈ probedQualities delta, 1 ≤ q ∧ q ≤ 95) ∧
      (probedQualities delta).length ≤ 7 ∧
      (b = none ↔ ∀ q ∈ probedQualities delta,
        ¬ (fun q => 100 * q) q ≤ envC1.target) ∧
      (∀ q s, b = some (q, s) → s = (fun q => 100 * q) q ∧
        s ≤ envC1.target ∧ q ∈ probedQualities delta ∧
        ∀ q2 ∈ probedQualities delta,
          (fun q => 100 * q) q2 ≤ envC1.target → q2 ≤ q) :=
  c1_phase1_binary_search envC1 (fun q => 100 * q) envC1.fs0 (fun _ => rfl)

/-- Request whose every Phase-1 probe encodes to a single byte: far below
`target - tolerance` (target 1024, tolerance 51.2). -/
def envC2 : Env := { baseEnv with p1enc := fun _ => some 1 }

/-- C2 counterexample: the claim says the Phase-1 best is accepted as final
if and only if its size lies within the full window
`[target - tolerance, target + tolerance]`, and in particular that a best
attempt strictly below `target - tolerance` is not accepted.  On `envC2`
every probe encodes to 1 byte, the search retains quality 95 with size 1,
and the code accepts it as the Phase-1 final result (line 342 checks only
`final_size <= target + tolerance`), even though
`1 < target - tolerance`. -/
theorem c2_counterexample :
    isOkAt (compressToSize envC2) FPath.output Phase.p1 = true ∧
    (finalFsOf (compressToSize envC2)).size FPath.output = 1 ∧
    ((1 : ℚ) < (envC2.target : ℚ) - envC2.tol) := by
  with_unfolding_all decide

/-- Request in which every Phase-1 probe encodes to 1100 bytes — above the
1024-byte target, so no probe is feasible and no best is recorded — while
1100 and the 500-byte input file size both lie inside
`target + tolerance = 1536`. -/
def envC3 : Env :=
  { baseEnv with
    p1enc := fun _ => some 1100
    inputSize := 500
    tolPct := 50
    p2enc := fun _ _ => some 2000
    rpow03 := fun _ => 1 }

/-- C3 counterexample: the claim says Phase 2 is entered only when
Phase 1's best size still exceeds `target + tolerance`.  On `envC3` the
run leaves Phase 1 without any recorded best (no probe was `<= target`),
so the downscale phases execute (the run concludes in Phase 3), while the
code's `best_size` variable — the input file's size, 500 — is well within
`target + tolerance`. -/
theorem c3_counterexample :
    isOkAt (compressToSize envC3) FPath.output Phase.p3 = true ∧
    p1best envC3 = none ∧
    p2baseSize envC3 = envC3.inputSize ∧
    ((envC3.inputSize : ℚ) ≤ (envC3.target : ℚ) + envC3.tol) := by
  with_unfolding_all decide

/-- Request whose first Phase-1 probe (quality `(1+95)//2 = 48`) throws
while every other quality would encode to 10 bytes. -/
def envC5 : Env :=
  { baseEnv with p1enc := fun q => if q = 48 then none else some 10 }

/-- C5 counterexample: the claim says a throwing probe is abandoned and the
search continues, the whole request failing only if every probe in every
phase fails.  On `envC5` only the probe at quality 48 throws — qualities 1
and 95 (and all others) encode to 10 bytes, well under the target — yet
the whole request fails immediately with the line-296 exception. -/
theorem c5_counterexample :
    isErrAt (compressToSize envC5) CErr.probeError = true ∧
    envC5.p1enc 1 = some 10 ∧ envC5.p1enc 95 = some 10 ∧
    (10 : ℕ) ≤ envC5.target := by
  with_unfolding_all decide

/-- Request whose first Phase-1 probe (quality 48) succeeds feasibly (100
bytes, recorded as best-so-far) and whose second probe (quality 72)
throws. -/
def envC6 : Env :=
  { baseEnv with p1enc := fun q => if q = 48 then some 100 else none }

/-- C6 counterexample: the claim says every temp artifact is deleted on
every exit path, in particular that a probe exception occurring after a
best-so-far file was recorded still deletes that best-so-far temp file.
On `envC6` the probe at quality 48 is recorded as best (its temp file is
kept on disk), the next probe at quality 72 throws and the request raises
— and the best-so-far temp file `.temp48.webp` is left behind: the
`finally` block at lines 452-455 deletes only the Phase-0 pre-scale
temp. -/
theorem c6_counterexample :
    isErrAt (compressToSize envC6) CErr.probeError = true ∧
    (finalFsOf (compressToSize envC6)).exists? (FPath.p1temp 48) = true ∧
    FPath.isTemp (FPath.p1temp 48) = true := by
  with_unfolding_all decide

/-- Request with `target_size_kb = 0` and `tolerance_percent = 0` — both
outside the preconditions the claim says are validated. -/
def envC7 : Env :=
  { baseEnv with
    targetKB := 0
    tolPct := 0
    p1enc := fun _ => some 50
    p2enc := fun _ _ => some 50 }

/-- C7 counterexample: the claim says `compress_to_size` fails with an
InvalidInput-class error, before any encoding work, whenever
`targetSizeBytes <= 0` or `tolerancePercent <= 0`.  The code never
validates either parameter (lines 197-207 check only existence, image
validity and the scale-factor range): with a zero target and zero
tolerance the request runs the entire search, performs encoding work, and
returns successfully via Phase 3. -/
theorem c7_counterexample :
    envC7.targetKB = 0 ∧ envC7.tolPct = 0 ∧
    isOkAt (compressToSize envC7) FPath.output Phase.p3 = true ∧
    (finalFsOf (compressToSize envC7)).events ≠ [] := by
  with_unfolding_all decide

/-- Request with a non-`.webp` output path whose container re-encode
succeeds at 5000 bytes (missing the window), after which Phase 2 succeeds
at once. -/
def envC8 : Env :=
  { baseEnv with
    outputEndsWebp := false
    p1enc := fun _ => some 10
    convEnc := some 5000
    p2enc := fun _ _ => some 100 }

/-- C8 counterexample: the claim says the destination path is written
exactly once and always by write-temp-then-rename, on every phase's
success path including the final re-encode into the user's requested
container.  On `envC8` the destination is written twice: first directly by
the codec (`img.save(output_path)` at line 328 — a `create`, not an atomic
rename), and then again by Phase 2's rename after the re-encoded size
missed the tolerance window. -/
theorem c8_counterexample :
    isOkAt (compressToSize envC8) FPath.output Phase.p2 = true ∧
    destWrites (finalFsOf (compressToSize envC8)).events FPath.output =
      [FsEvent.create FPath.output,
       FsEvent.rename (FPath.p2temp 1) FPath.output] := by
  with_unfolding_all decide

/-- Request with a non-`.webp` output path, a failing container re-encode,
and a negative tolerance (never validated, see C7), so that the Phase-1
best is kept as WEBP yet misses the shrunken window. -/
def envC10 : Env :=
  { baseEnv with
    outputEndsWebp := false
    tolPct := -50
    p1enc := fun _ => some 600
    convEnc := none
    p2enc := fun _ _ => some 100 }

/-- C10 counterexample: the claim says a request concluding in Phase 2 or
Phase 3 renames the minimum-quality WebP temp file onto the requested
output path.  On `envC10` the failed container re-encode reassigned the
output-path variable to the `.webp` sibling (line 335), so the Phase-2
rename targets the sibling path — the requested output path is not the
returned result. -/
theorem c10_counterexample :
    isOkAt (compressToSize envC10) FPath.webpSibling Phase.p2 = true ∧
    isOkAt (compressToSize envC10) FPath.output Phase.p2 = false := by
  with_unfolding_all decide

/-- Lines 345-455 can only conclude via the Phase-2 return, the Phase-3
return, or an exception — never via the Phase-1 return site. -/
theorem p23_not_p1 (env : Env) (b : Option (ℕ × ℕ)) (cs : ℕ) (outP : FPath)
    (fs : Fs) (p : FPath) :
    (phase23 env b cs outP fs).1 ≠ Except.ok (p, Phase.p1) := by
  simp only [phase23]
  split
  · simp
  · simp
  · simp only [phase3]
    split
    · simp
    · simp

/-- Given the evaluated acceptance decision of lines 317-343, the Phase-1
return happens exactly when the measured final size `v` is at most
`target + tolerance`, and the returned file then has size `v`. -/
theorem accept_helper (env : Env) (b : Option (ℕ × ℕ)) (fs1 : Fs)
    (v : ℕ) (outP : FPath) (fsC : Fs)
    (hbne : b ≠ none)
    (ha : afterP1 env b fs1 =
      (decide ((v : ℚ) ≤ (env.target : ℚ) + env.tol), outP, fsC))
    (hsize : fsC.size outP = v)
    (hpfs : p1finalSize env = v)
    (hb : p1best env = b)
    (houtP : ¬ outP = FPath.prescaleTemp)
    (hrun : ∀ acc outP2 fs2, afterP1 env b fs1 = (acc, outP2, fs2) →
      compressToSize env = (if acc then
        some (Except.ok (outP2, Phase.p1),
          fs2.removeIfExists FPath.prescaleTemp)
      else
        some ((phase23 env b env.inputSize outP2 fs2).1,
          (phase23 env b env.inputSize outP2 fs2).2.removeIfExists
            FPath.prescaleTemp))) :
    ((∃ p fs', compressToSize env = some (Except.ok (p, Phase.p1), fs')) ↔
      (p1best env ≠ none ∧
        ((p1finalSize env : ℚ) ≤ (env.target : ℚ) + env.tol))) ∧
    (∀ p fs', compressToSize env = some (Except.ok (p, Phase.p1), fs') →
      fs'.size p = p1finalSize env) := by
  have hcs := hrun _ _ _ ha
  by_cases hv : (v : ℚ) ≤ (env.target : ℚ) + env.tol
  · rw [if_pos (decide_eq_true hv)] at hcs
    constructor
    · constructor
      · intro _
        refine ⟨by rw [hb]; exact hbne, ?_⟩
        rw [hpfs]
        exact hv
      · intro _
        exact ⟨outP, fsC.removeIfExists FPath.prescaleTemp, hcs⟩
    · intro p fs' hex
      rw [hcs] at hex
      simp only [Option.some.injEq, Prod.mk.injEq, Except.ok.injEq] at hex
      obtain ⟨⟨hp, -⟩, hfs⟩ := hex
      rw [← hp, ← hfs, size_removeIfExists_ne _ (fun hc => houtP hc.symm),
        hsize, hpfs]
  · rw [if_neg (by simp [hv])] at hcs
    constructor
    · constructor
      · rintro ⟨p, fs', hex⟩
        rw [hcs] at hex
        simp only [Option.some.injEq, Prod.mk.injEq] at hex
        exact absurd hex.1 (p23_not_p1 env b env.inputSize outP fsC p)
      · rintro ⟨-, hr2⟩
        rw [hpfs] at hr2
        exact absurd hr2 hv
    · intro p fs' hex
      rw [hcs] at hex
      simp only [Option.some.injEq, Prod.mk.injEq] at hex
      exact absurd hex.1 (p23_not_p1 env b env.inputSize outP fsC p)

/-- C2 (amended): with all Phase-1 probe encodes succeeding and no Phase-0
pre-scale, the best-so-far attempt is accepted as the Phase-1 final result
if and only if a feasible probe was recorded AND the measured final size —
the container re-encode's size when it runs and succeeds, otherwise the
best probe's own size — is at most `target + tolerance`.  Only this upper
bound is checked (line 342): no lower bound `target - tolerance` is
enforced, so a best attempt strictly below the window is still accepted
(see the counterexample).  When accepted, the returned file's measured
size equals that final size. -/
theorem c2_accept_upper_bound_only (env : Env) (f : ℕ → ℕ)
    (henc : ∀ q, env.p1enc q = some (f q))
    (h1 : env.inputExists = true) (h2 : env.isValidImage = true)
    (h3 : env.scaleFactor = none)
    (hpre : ∀ rec ∈ env.preexisting, ∀ qq, rec.path ≠ FPath.p1temp qq) :
    ((∃ p fs', compressToSize env = some (Except.ok (p, Phase.p1), fs')) ↔
      (p1best env ≠ none ∧
        ((p1finalSize env : ℚ) ≤ (env.target : ℚ) + env.tol))) ∧
    (∀ p fs', compressToSize env = some (Except.ok (p, Phase.p1), fs') →
      fs'.size p = p1finalSize env) := by
  obtain ⟨b, fs1, hEq, hp1b, hbestf, hfilesb, hfiles0, hevshape, hrun⟩ :=
    run_split env f henc h1 h2 h3 hpre
  rcases hbcase : b with _ | ⟨q, s⟩
  · subst hbcase
    have hcs := hrun false FPath.output fs1 (afterP1_none env fs1)
    rw [if_neg (by simp)] at hcs
    constructor
    · constructor
      · rintro ⟨p, fs', hex⟩
        rw [hcs] at hex
        simp only [Option.some.injEq, Prod.mk.injEq] at hex
        exact absurd hex.1 (p23_not_p1 env none env.inputSize FPath.output fs1 p)
      · rintro ⟨hne, -⟩
        exact absurd hp1b hne
    · intro p fs' hex
      rw [hcs] at hex
      simp only [Option.some.injEq, Prod.mk.injEq] at hex
      exact absurd hex.1 (p23_not_p1 env none env.inputSize FPath.output fs1 p)
  · subst hbcase
    obtain ⟨hsf, hst, hex1, hsz1, hfm1⟩ := hbestf q s rfl
    cases hweb : env.outputEndsWebp with
    | true =>
        obtain ⟨fsC, ha, hsize, hfmt, hfilesC, hdelta⟩ :=
          afterP1_webp env q s fs1 hweb hex1 hsz1 hfm1
        refine accept_helper env (some (q, s)) fs1 s FPath.output fsC
          (by simp) ha hsize ?_ hp1b (by intro hc; cases hc) hrun
        simp [p1finalSize, hp1b, p1finalSizeVal, hweb]
    | false =>
        cases hconv : env.convEnc with
        | some csz =>
            obtain ⟨fsC, ha, hsize, hfilesC, hdelta⟩ :=
              afterP1_conv_ok env q s csz fs1 hweb hconv hex1 hsz1
            refine accept_helper env (some (q, s)) fs1 csz FPath.output fsC
              (by simp) ha hsize ?_ hp1b (by intro hc; cases hc) hrun
            simp [p1finalSize, hp1b, p1finalSizeVal, hweb, hconv]
        | none =>
            obtain ⟨fsC, ha, hsize, hfmt, hfilesC⟩ :=
              afterP1_conv_fail env q s fs1 hweb hconv hex1 hsz1 hfm1
            refine accept_helper env (some (q, s)) fs1 s FPath.webpSibling fsC
              (by simp) ha hsize ?_ hp1b (by intro hc; cases hc) hrun
            simp [p1finalSize, hp1b, p1finalSizeVal, hweb, hconv]

/-- Witness: `c2_accept_upper_bound_only` instantiated at `envC2` with all
hypotheses discharged. -/
theorem c2_witness :
    ((∃ p fs', compressToSize envC2 = some (Except.ok (p, Phase.p1), fs')) ↔
      (p1best envC2 ≠ none ∧
        ((p1finalSize envC2 : ℚ) ≤ (envC2.target : ℚ) + envC2.tol))) ∧
    (∀ p fs', compressToSize envC2 = some (Except.ok (p, Phase.p1), fs') →
      fs'.size p = p1finalSize envC2) :=
  c2_accept_upper_bound_only envC2 (fun _ => 1) (fun _ => rfl) rfl rfl rfl
    (by intro rec hrec qq; simp [envC2, baseEnv] at hrec)

theorem destWrites_p1shape (d : FPath) (hd : ∀ q, ¬ FPath.p1temp q = d) :
    ∀ evs : List FsEvent,
      (∀ e ∈ evs, (∃ q, e = FsEvent.create (FPath.p1temp q)) ∨
        (∃ q, e = FsEvent.remove (FPath.p1temp q))) →
      destWrites evs d = [] := by
  intro evs
  induction evs with
  | nil => intro _; rfl
  | cons e t ih =>
      intro h
      have ht := ih (fun e2 he2 => h e2 (List.mem_cons_of_mem _ he2))
      have hsplit : destWrites (e :: t) d =
          destWrites [e] d ++ destWrites t d := destWrites_append [e] t d
      rcases h e (List.mem_cons_self e t) with ⟨q, he⟩ | ⟨q, he⟩ <;> subst he
      · rw [hsplit, destWrites_create_ne (hd q), ht]
        rfl
      · rw [hsplit, destWrites_remove, ht]
        rfl

/-- Full case split of a pre-scale-free request with all Phase-1 probes
encoding: either Phase 1 accepts (returning a file of the measured final
size, written by a single rename when the output path is `.webp`), or the
run continues into lines 345-455 exactly as `phase23` models them; in the
latter case the output-path variable still points at the requested path
unless the tolerance was negative, and a run with no recorded best has not
yet written the output path at all. -/
theorem run_accept_cases (env : Env) (f : ℕ → ℕ)
    (henc : ∀ q, env.p1enc q = some (f q))
    (h1 : env.inputExists = true) (h2 : env.isValidImage = true)
    (h3 : env.scaleFactor = none)
    (hpre : ∀ rec ∈ env.preexisting, ∀ qq, rec.path ≠ FPath.p1temp qq) :
    ((p1best env ≠ none ∧
        ((p1finalSize env : ℚ) ≤ (env.target : ℚ) + env.tol)) ∧
      ∃ (outP : FPath) (fsC : Fs),
        (outP = FPath.output ∨ outP = FPath.webpSibling) ∧
        compressToSize env = some (Except.ok (outP, Phase.p1),
          fsC.removeIfExists FPath.prescaleTemp) ∧
        fsC.size outP = p1finalSize env ∧
        (∀ rec ∈ fsC.files, rec ∈ env.preexisting ∨
          rec.path = FPath.output ∨ rec.path = FPath.webpSibling) ∧
        (env.outputEndsWebp = true → outP = FPath.output ∧
          ∃ src, destWrites fsC.events FPath.output =
            [FsEvent.rename src FPath.output])) ∨
    (¬ (p1best env ≠ none ∧
        ((p1finalSize env : ℚ) ≤ (env.target : ℚ) + env.tol)) ∧
      ∃ (outP : FPath) (fsC : Fs),
        (outP = FPath.output ∨ outP = FPath.webpSibling) ∧
        compressToSize env =
          some ((phase23 env (p1best env) env.inputSize outP fsC).1,
            (phase23 env (p1best env) env.inputSize outP fsC).2.removeIfExists
              FPath.prescaleTemp) ∧
        (∀ rec ∈ fsC.files, rec ∈ env.preexisting ∨
          rec.path = FPath.output ∨ rec.path = FPath.webpSibling) ∧
        (0 ≤ env.tolPct → outP = FPath.output) ∧
        (p1best env = none → destWrites fsC.events FPath.output = []) ∧
        (env.outputEndsWebp = true → 0 ≤ env.tolPct →
          p1best env = none)) := by
  obtain ⟨b, fs1, hEq, hp1b, hbestf, hfilesb, hfiles0, hevshape, hrun⟩ :=
    run_split env f henc h1 h2 h3 hpre
  have hdw1 : destWrites fs1.events FPath.output = [] :=
    destWrites_p1shape FPath.output (fun q hc => by cases hc) fs1.events
      hevshape
  rcases hbc : b with _ | ⟨q, s⟩
  · subst hbc
    have hcs := hrun false FPath.output fs1 (afterP1_none env fs1)
    rw [if_neg (by simp)] at hcs
    refine Or.inr ⟨fun hc => hc.1 hp1b, FPath.output, fs1, Or.inl rfl, ?_,
      ?_, fun _ => rfl, fun _ => hdw1, fun _ _ => hp1b⟩
    · rw [hp1b]
      exact hcs
    · intro rec hrec
      by_cases hp : ∃ qq, rec.path = FPath.p1temp qq
      · obtain ⟨qb, sb, hbb, -⟩ := hfilesb rec hrec hp
        exact absurd hbb (by simp)
      · exact Or.inl (hfiles0 rec hrec (fun qq hc => hp ⟨qq, hc⟩))
  · subst hbc
    obtain ⟨hsf, hst, hex1, hsz1, hfm1⟩ := hbestf q s rfl
    have hfsCfiles : ∀ (fsC : Fs),
        (∀ rec ∈ fsC.files, rec.path = FPath.output ∨
          rec.path = FPath.webpSibling ∨
          (rec ∈ fs1.files ∧ rec.path ≠ FPath.p1temp q)) →
        ∀ rec ∈ fsC.files, rec ∈ env.preexisting ∨
          rec.path = FPath.output ∨ rec.path = FPath.webpSibling := by
      intro fsC hC rec hrec
      rcases hC rec hrec with hr | hr | ⟨hr1, hr2⟩
      · exact Or.inr (Or.inl hr)
      · exact Or.inr (Or.inr hr)
      · by_cases hp : ∃ qq, rec.path = FPath.p1temp qq
        · obtain ⟨qb, sb, hbb, hpath⟩ := hfilesb rec hr1 hp
          simp only [Option.some.injEq, Prod.mk.injEq] at hbb
          exact absurd (hpath.trans (by rw [hbb.1])) hr2
        · exact Or.inl (hfiles0 rec hr1 (fun qq hc => hp ⟨qq, hc⟩))
    have htolpos : 0 ≤ env.tolPct → ((s : ℚ) ≤ (env.target : ℚ) + env.tol) := by
      intro htol
      have h1' : (s : ℚ) ≤ (env.target : ℚ) := by
        exact_mod_cast hst
      have h2' : 0 ≤ env.tol := by
        rw [Env.tol]
        apply mul_nonneg
        · positivity
        · positivity
      linarith
    cases hweb : env.outputEndsWebp with
    | true =>
        obtain ⟨fsC, ha, hsize, hfmt, hfilesC, delta, hev, hdwd⟩ :=
          afterP1_webp env q s fs1 hweb hex1 hsz1 hfm1
        have hpfs : p1finalSize env = s := by
          simp [p1finalSize, hp1b, p1finalSizeVal, hweb]
        have hdwC : destWrites fsC.events FPath.output =
            [FsEvent.rename (FPath.p1temp q) FPath.output] := by
          rw [hev, destWrites_append, hdw1, hdwd]
          rfl
        by_cases hv : (s : ℚ) ≤ (env.target : ℚ) + env.tol
        · have hcs := hrun _ _ _ ha
          rw [if_pos (decide_eq_true hv)] at hcs
          refine Or.inl ⟨⟨by rw [hp1b]; simp, by rw [hpfs]; exact hv⟩,
            FPath.output, fsC, Or.inl rfl, hcs, by rw [hpfs]; exact hsize,
            hfsCfiles fsC (fun rec hrec => by
              rcases hfilesC rec hrec with hr | hr
              · exact Or.inl hr
              · exact Or.inr (Or.inr hr)), ?_⟩
          intro _
          exact ⟨rfl, FPath.p1temp q, hdwC⟩
        · have hcs := hrun _ _ _ ha
          rw [if_neg (by simp [hv])] at hcs
          refine Or.inr ⟨fun hc => absurd (by rw [hpfs] at hc; exact hc.2) hv,
            FPath.output, fsC, Or.inl rfl, by rw [hp1b]; exact hcs,
            hfsCfiles fsC (fun rec hrec => by
              rcases hfilesC rec hrec with hr | hr
              · exact Or.inl hr
              · exact Or.inr (Or.inr hr)), fun _ => rfl, ?_,
            fun _ htol => absurd (htolpos htol) hv⟩
          intro hcontra
          rw [hp1b] at hcontra
          exact Option.noConfusion hcontra
    | false =>
        cases hconv : env.convEnc with
        | some csz =>
            obtain ⟨fsC, ha, hsize, hfilesC, delta, hev, hdwd⟩ :=
              afterP1_conv_ok env q s csz fs1 hweb hconv hex1 hsz1
            have hpfs : p1finalSize env = csz := by
              simp [p1finalSize, hp1b, p1finalSizeVal, hweb, hconv]
            by_cases hv : (csz : ℚ) ≤ (env.target : ℚ) + env.tol
            · have hcs := hrun _ _ _ ha
              rw [if_pos (decide_eq_true hv)] at hcs
              refine Or.inl ⟨⟨by rw [hp1b]; simp, by rw [hpfs]; exact hv⟩,
                FPath.output, fsC, Or.inl rfl, hcs, by rw [hpfs]; exact hsize,
                hfsCfiles fsC hfilesC, ?_⟩
              intro hc
              exact Bool.noConfusion hc
            · have hcs := hrun _ _ _ ha
              rw [if_neg (by simp [hv])] at hcs
              refine Or.inr ⟨fun hc => absurd (by rw [hpfs] at hc; exact hc.2) hv,
                FPath.output, fsC, Or.inl rfl, by rw [hp1b]; exact hcs,
                hfsCfiles fsC hfilesC, fun _ => rfl, ?_,
                fun hc _ => Bool.noConfusion hc⟩
              intro hcontra
              rw [hp1b] at hcontra
              exact Option.noConfusion hcontra
        | none =>
            obtain ⟨fsC, ha, hsize, hfmt, hfilesC⟩ :=
              afterP1_conv_fail env q s fs1 hweb hconv hex1 hsz1 hfm1
            have hpfs : p1finalSize env = s := by
              simp [p1finalSize, hp1b, p1finalSizeVal, hweb, hconv]
            by_cases hv : (s : ℚ) ≤ (env.target : ℚ) + env.tol
            · have hcs := hrun _ _ _ ha
              rw [if_pos (decide_eq_true hv)] at hcs
              refine Or.inl ⟨⟨by rw [hp1b]; simp, by rw [hpfs]; exact hv⟩,
                FPath.webpSibling, fsC, Or.inr rfl, hcs,
                by rw [hpfs]; exact hsize,
                hfsCfiles fsC (fun rec hrec => by
                  rcases hfilesC rec hrec with hr | hr
                  · exact Or.inr (Or.inl hr)
                  · exact Or.inr (Or.inr hr)), ?_⟩
              intro hc
              exact Bool.noConfusion hc
            · have hcs := hrun _ _ _ ha
              rw [if_neg (by simp [hv])] at hcs
              refine Or.inr ⟨fun hc => absurd (by rw [hpfs] at hc; exact hc.2) hv,
                FPath.webpSibling, fsC, Or.inr rfl, by rw [hp1b]; exact hcs,
                hfsCfiles fsC (fun rec hrec => by
                  rcases hfilesC rec hrec with hr | hr
                  · exact Or.inr (Or.inl hr)
                  · exact Or.inr (Or.inr hr)), ?_, ?_,
                fun hc _ => Bool.noConfusion hc⟩
              · intro htol
                exact absurd (htolpos htol) hv
              · intro hcontra
                rw [hp1b] at hcontra
                exact Option.noConfusion hcontra

/-- C3 (amended): with all probe encodes succeeding and no Phase-0
pre-scale, the downscale phases (lines 345-455) are entered exactly when
Phase 1 did not accept — that is, when no feasible probe was recorded or
the measured final size exceeds `target + tolerance` — not merely when
"Phase 1's best size" exceeds the window.  When entered, Phase 2 runs at
most 10 iterations along the scale sequence that starts at
`(size_ratio) ** 0.3` clamped to 0.05 and multiplies by 0.7 re-clamped to
0.05 (where `size_ratio` is `target / best_size`, `best_size` being the
Phase-1 best probe's size or the working file's size when none was
recorded): a run concluding in Phase 2 stopped at the first iteration
whose grayscale minimum-quality encode fit within `target + tolerance` and
returned precisely that file, and a run concluding in Phase 3 found no
such iteration among all 10. -/
theorem c3_phase2_mechanics (env : Env) (f : ℕ → ℕ) (g : ℕ → ℕ → ℕ)
    (henc : ∀ q, env.p1enc q = some (f q))
    (hg : ∀ w h, env.p2enc w h = some (g w h))
    (h1 : env.inputExists = true) (h2 : env.isValidImage = true)
    (h3 : env.scaleFactor = none)
    (hpre : ∀ rec ∈ env.preexisting, ∀ qq, rec.path ≠ FPath.p1temp qq) :
    ((∃ p ph fs', compressToSize env = some (Except.ok (p, ph), fs') ∧
        ph ≠ Phase.p1) ↔
      ¬ (p1best env ≠ none ∧
        ((p1finalSize env : ℚ) ≤ (env.target : ℚ) + env.tol))) ∧
    (∀ p fs', compressToSize env = some (Except.ok (p, Phase.p2), fs') →
      ∃ k, k < 10 ∧
        ((g (p2dimsAt env k).1 (p2dimsAt env k).2 : ℚ) ≤
          (env.target : ℚ) + env.tol) ∧
        (∀ j, j < k →
          ¬ ((g (p2dimsAt env j).1 (p2dimsAt env j).2 : ℚ) ≤
            (env.target : ℚ) + env.tol)) ∧
        fs'.size p = g (p2dimsAt env k).1 (p2dimsAt env k).2) ∧
    (∀ p fs', compressToSize env = some (Except.ok (p, Phase.p3), fs') →
      ∀ k, k < 10 →
        ¬ ((g (p2dimsAt env k).1 (p2dimsAt env k).2 : ℚ) ≤
          (env.target : ℚ) + env.tol)) := by
  rcases run_accept_cases env f henc h1 h2 h3 hpre with
    ⟨hap, outP, fsC, houtd, hcs, hszC, hfilesC2, hwebc⟩ |
    ⟨hnap, outP, fsC, houtd, hcs, hfilesC2, htolc, hnonec⟩
  · refine ⟨?_, ?_, ?_⟩
    · constructor
      · rintro ⟨p, ph, fs', hex, hph⟩
        rw [hcs] at hex
        simp only [Option.some.injEq, Prod.mk.injEq, Except.ok.injEq] at hex
        exact absurd hex.1.2.symm hph
      · intro hn
        exact absurd hap hn
    · intro p fs' hex
      rw [hcs] at hex
      simp only [Option.some.injEq, Prod.mk.injEq, Except.ok.injEq] at hex
      exact Phase.noConfusion hex.1.2
    · intro p fs' hex
      rw [hcs] at hex
      simp only [Option.some.injEq, Prod.mk.injEq, Except.ok.injEq] at hex
      exact Phase.noConfusion hex.1.2
  · have hpres : ¬ FPath.prescaleTemp = outP := by
      rcases houtd with h | h <;> subst h <;> intro hc <;> cases hc
    rw [phase23_eval env (p1best env) outP fsC rfl] at hcs
    by_cases hfeas : ∃ k, k < 10 ∧
        ((g (p2dimsAt env k).1 (p2dimsAt env k).2 : ℚ) ≤
          (env.target : ℚ) + env.tol)
    · obtain ⟨k0, hk0, hfk0⟩ := hfeas
      have hPex : ∃ k, ((g (p2dimsAt env k).1 (p2dimsAt env k).2 : ℚ) ≤
          (env.target : ℚ) + env.tol) := ⟨k0, hfk0⟩
      have hKspec := Nat.find_spec hPex
      have hKmin : ∀ j, j < Nat.find hPex →
          ¬ ((g (p2dimsAt env j).1 (p2dimsAt env j).2 : ℚ) ≤
            (env.target : ℚ) + env.tol) :=
        fun j hj => Nat.find_min hPex hj
      have hK10 : Nat.find hPex < 10 :=
        lt_of_le_of_lt (Nat.find_min' hPex hfk0) hk0
      obtain ⟨fs2, hploop, hsize2⟩ := p2_run_some env outP houtd 10
        (max (env.rpow03 (p2ratio env)) (1 / 20)) 1 fsC (Nat.find hPex)
        (g (p2dimsAt env (Nat.find hPex)).1 (p2dimsAt env (Nat.find hPex)).2)
        hK10 (hg _ _) hKspec
        (fun j hj => ⟨g (p2dimsAt env j).1 (p2dimsAt env j).2, hg _ _,
          hKmin j hj⟩)
      simp only [hploop] at hcs
      refine ⟨?_, ?_, ?_⟩
      · constructor
        · intro _
          exact hnap
        · intro _
          exact ⟨outP, Phase.p2, fs2.removeIfExists FPath.prescaleTemp, hcs,
            by simp⟩
      · intro p fs' hex
        rw [hcs] at hex
        simp only [Option.some.injEq, Prod.mk.injEq, Except.ok.injEq] at hex
        obtain ⟨⟨hp, -⟩, hfs⟩ := hex
        refine ⟨Nat.find hPex, hK10, hKspec, hKmin, ?_⟩
        rw [← hp, ← hfs, size_removeIfExists_ne _ hpres, hsize2]
      · intro p fs' hex
        rw [hcs] at hex
        simp only [Option.some.injEq, Prod.mk.injEq, Except.ok.injEq] at hex
        exact Phase.noConfusion hex.1.2
    · have hall : ∀ k, k < 10 →
          ¬ ((g (p2dimsAt env k).1 (p2dimsAt env k).2 : ℚ) ≤
            (env.target : ℚ) + env.tol) :=
        fun k hk hP => hfeas ⟨k, hk, hP⟩
      obtain ⟨fs2, hploop⟩ := p2_run_none env outP 10
        (max (env.rpow03 (p2ratio env)) (1 / 20)) 1 fsC
        (fun k hk => ⟨g (p2dimsAt env k).1 (p2dimsAt env k).2, hg _ _,
          hall k hk⟩)
      simp only [hploop] at hcs
      obtain ⟨fs3, hp3, hsize3, hfmt3, hfiles3, delta3, hev3, hdw3⟩ :=
        (phase3_eval env outP fs2 houtd).1 _ (hg _ _)
      simp only [hp3] at hcs
      refine ⟨?_, ?_, ?_⟩
      · constructor
        · intro _
          exact hnap
        · intro _
          exact ⟨outP, Phase.p3, fs3.removeIfExists FPath.prescaleTemp, hcs,
            by simp⟩
      · intro p fs' hex
        rw [hcs] at hex
        simp only [Option.some.injEq, Prod.mk.injEq, Except.ok.injEq] at hex
        exact Phase.noConfusion hex.1.2
      · intro p fs' _
        exact hall

/-- Witness: `c3_phase2_mechanics` instantiated at `envC3` (no feasible
Phase-1 probe, every downscale encode 2000 bytes) with all hypotheses
discharged. -/
theorem c3_witness :
    ((∃ p ph fs', compressToSize envC3 = some (Except.ok (p, ph), fs') ∧
        ph ≠ Phase.p1) ↔
      ¬ (p1best envC3 ≠ none ∧
        ((p1finalSize envC3 : ℚ) ≤ (envC3.target : ℚ) + envC3.tol))) ∧
    (∀ p fs', compressToSize envC3 = some (Except.ok (p, Phase.p2), fs') →
      ∃ k, k < 10 ∧
        ((((fun _ _ => 2000) : ℕ → ℕ → ℕ) (p2dimsAt envC3 k).1
          (p2dimsAt envC3 k).2 : ℚ) ≤ (envC3.target : ℚ) + envC3.tol) ∧
        (∀ j, j < k →
          ¬ ((((fun _ _ => 2000) : ℕ → ℕ → ℕ) (p2dimsAt envC3 j).1
            (p2dimsAt envC3 j).2 : ℚ) ≤ (envC3.target : ℚ) + envC3.tol)) ∧
        fs'.size p = ((fun _ _ => 2000) : ℕ → ℕ → ℕ) (p2dimsAt envC3 k).1
          (p2dimsAt envC3 k).2) ∧
    (∀ p fs', compressToSize envC3 = some (Except.ok (p, Phase.p3), fs') →
      ∀ k, k < 10 →
        ¬ ((((fun _ _ => 2000) : ℕ → ℕ → ℕ) (p2dimsAt envC3 k).1
          (p2dimsAt envC3 k).2 : ℚ) ≤ (envC3.target : ℚ) + envC3.tol)) :=
  c3_phase2_mechanics envC3 (fun _ => 1100) (fun _ _ => 2000)
    (fun _ => rfl) (fun _ _ => rfl) rfl rfl rfl
    (by intro rec hrec qq; simp [envC3, baseEnv] at hrec)

/-- C4: once Phase 1 did not accept and all 10 Phase-2 iterations produced
sizes above `target + tolerance`, Phase 3 runs: it resizes the working
image to exactly `max(10, int(width*0.2)) × max(10, int(height*0.2))`
(grayscale, minimum-quality WEBP — the `p2enc` oracle), and accepts the
result unconditionally: whatever size the codec produces — with no
comparison against the tolerance window — is renamed onto the output path
and returned, so a pathological target still returns successfully; the
phase fails only when the encode itself throws (line 440). -/
theorem c4_phase3_unconditional (env : Env) (f : ℕ → ℕ)
    (henc : ∀ q, env.p1enc q = some (f q))
    (h1 : env.inputExists = true) (h2 : env.isValidImage = true)
    (h3 : env.scaleFactor = none)
    (hpre : ∀ rec ∈ env.preexisting, ∀ qq, rec.path ≠ FPath.p1temp qq)
    (hnacc : ¬ (p1best env ≠ none ∧
      ((p1finalSize env : ℚ) ≤ (env.target : ℚ) + env.tol)))
    (hall : ∀ k, k < 10 → ∃ sz, p2probe env k = some sz ∧
      ¬ ((sz : ℚ) ≤ (env.target : ℚ) + env.tol)) :
    (∀ sz, env.p2enc (max 10 (Rat.floor ((env.width : ℚ) * (2 / 10))).toNat)
        (max 10 (Rat.floor ((env.height : ℚ) * (2 / 10))).toNat) = some sz →
      ∃ p fs', compressToSize env = some (Except.ok (p, Phase.p3), fs') ∧
        fs'.size p = sz ∧ fs'.fmtOf p = some Fmt.webp) ∧
    (env.p2enc (max 10 (Rat.floor ((env.width : ℚ) * (2 / 10))).toNat)
        (max 10 (Rat.floor ((env.height : ℚ) * (2 / 10))).toNat) = none →
      ∃ fs', compressToSize env = some (Except.error CErr.finalError, fs')) := by
  rcases run_accept_cases env f henc h1 h2 h3 hpre with
    ⟨hap, -⟩ | ⟨-, outP, fsC, houtd, hcs, -, -, -⟩
  · exact absurd hap hnacc
  · have hpres : ¬ FPath.prescaleTemp = outP := by
      rcases houtd with h | h <;> subst h <;> intro hc <;> cases hc
    rw [phase23_eval env (p1best env) outP fsC rfl] at hcs
    obtain ⟨fs2, hploop⟩ := p2_run_none env outP 10
      (max (env.rpow03 (p2ratio env)) (1 / 20)) 1 fsC hall
    simp only [hploop] at hcs
    constructor
    · intro sz hsz
      obtain ⟨fs3, hp3, hsize3, hfmt3, hfiles3, delta3, hev3, hdw3⟩ :=
        (phase3_eval env outP fs2 houtd).1 sz hsz
      simp only [hp3] at hcs
      refine ⟨outP, fs3.removeIfExists FPath.prescaleTemp, hcs, ?_, ?_⟩
      · rw [size_removeIfExists_ne _ hpres, hsize3]
      · rw [fmtOf_removeIfExists_ne _ hpres, hfmt3]
    · intro hsz
      obtain ⟨fs3, hp3, hfiles3⟩ := (phase3_eval env outP fs2 houtd).2 hsz
      simp only [hp3] at hcs
      exact ⟨fs3.removeIfExists FPath.prescaleTemp, hcs⟩

/-- Witness: `c4_phase3_unconditional` instantiated at `baseEnv` (no
feasible Phase-1 probe; every Phase-2 encode 2000 bytes, above the
1536-byte window) with all hypotheses discharged. -/
theorem c4_witness :
    (∀ sz, baseEnv.p2enc
        (max 10 (Rat.floor ((baseEnv.width : ℚ) * (2 / 10))).toNat)
        (max 10 (Rat.floor ((baseEnv.height : ℚ) * (2 / 10))).toNat) =
          some sz →
      ∃ p fs', compressToSize baseEnv = some (Except.ok (p, Phase.p3), fs') ∧
        fs'.size p = sz ∧ fs'.fmtOf p = some Fmt.webp) ∧
    (baseEnv.p2enc
        (max 10 (Rat.floor ((baseEnv.width : ℚ) * (2 / 10))).toNat)
        (max 10 (Rat.floor ((baseEnv.height : ℚ) * (2 / 10))).toNat) =
          none →
      ∃ fs', compressToSize baseEnv =
        some (Except.error CErr.finalError, fs')) :=
  c4_phase3_unconditional baseEnv (fun _ => 2000)
    (fun _ => rfl) rfl rfl rfl
    (by intro rec hrec qq; simp [baseEnv] at hrec)
    (by
      intro hc
      exact hc.1 (by with_unfolding_all decide))
    (fun k hk => ⟨2000, rfl, by with_unfolding_all decide⟩)

/-- C5 (amended): a probe whose encode throws is not abandoned-and-skipped:
the probe's temp file is deleted and the exception immediately aborts the
entire request (lines 293-296) — no further probes are attempted and no
best-so-far comparison excludes the probe.  Concretely, if the very first
probe (quality 48) throws, the loop stops with no best and no other probe
attempted; and in general the Phase-1 loop raises exactly when some
quality in the current interval fails to encode. -/
theorem c5_probe_failure_aborts (env : Env) (fs : Fs)
    (h48 : env.p1enc 48 = none) :
    phase1Loop env 96 1 95 none fs =
      some (Except.error CErr.probeError, none,
        fs.removeIfExists (FPath.p1temp 48)) ∧
    (∀ fuel low high best fs0 e b fs1,
      phase1Loop env fuel low high best fs0 =
        some (Except.error e, b, fs1) →
      e = CErr.probeError ∧ ∃ q, low ≤ q ∧ q ≤ high ∧
        env.p1enc q = none) := by
  constructor
  · show phase1Loop env (95 + 1) 1 95 none fs = _
    simp [phase1Loop, h48]
  · exact phase1_err env

/-- Witness: `c5_probe_failure_aborts` instantiated at `envC5` (whose
probe at quality 48 throws) and the empty file system. -/
theorem c5_witness :
    phase1Loop envC5 96 1 95 none ⟨[], []⟩ =
      some (Except.error CErr.probeError, none,
        Fs.removeIfExists ⟨[], []⟩ (FPath.p1temp 48)) ∧
    (∀ fuel low high best fs0 e b fs1,
      phase1Loop envC5 fuel low high best fs0 =
        some (Except.error e, b, fs1) →
      e = CErr.probeError ∧ ∃ q, low ≤ q ∧ q ≤ high ∧
        envC5.p1enc q = none) :=
  c5_probe_failure_aborts envC5 ⟨[], []⟩ rfl

theorem p2_result_err (env : Env) (out : FPath) :
    ∀ r scale i fs e fs2,
      phase2Loop env out scale i r fs = (Except.error e, fs2) →
      ∀ rec ∈ fs2.files, rec ∈ fs.files := by
  intro r
  induction r with
  | zero =>
      intro scale i fs e fs2 heq
      simp [phase2Loop] at heq
  | succ n ih =>
      intro scale i fs e fs2 heq
      simp only [phase2Loop] at heq
      cases henc : env.p2enc ((Rat.floor ((env.width : ℚ) * scale)).toNat)
          ((Rat.floor ((env.height : ℚ) * scale)).toNat) with
      | none =>
          simp only [henc, Prod.mk.injEq] at heq
          rw [← heq.2]
          intro rec hrec
          exact mem_files_removeIfExists hrec
      | some sz =>
          simp only [henc] at heq
          by_cases hsz : (sz : ℚ) ≤ (env.target : ℚ) + env.tol
          · rw [if_pos hsz] at heq
            simp at heq
          · rw [if_neg hsz] at heq
            intro rec hrec
            have hr := ih _ _ _ _ _ heq rec hrec
            have h2 := mem_files_remove hr
            rcases mem_files_create h2.1 with h3 | h3
            · exact absurd (by rw [h3]) h2.2
            · exact h3.1

/-- Result-conditioned shape of a run of lines 345-455 that concludes with
a return: the returned path is the phase's output path, holding a WEBP
file put there by a single rename; no file other than the output is added;
and the concluding phase is 2 or 3. -/
theorem p23_result_ok (env : Env) (B : Option (ℕ × ℕ)) (cs : ℕ)
    (outP : FPath) (fs : Fs) (p : FPath) (ph : Phase) (fs2 : Fs)
    (hout : outP = FPath.output ∨ outP = FPath.webpSibling)
    (heq : phase23 env B cs outP fs = (Except.ok (p, ph), fs2)) :
    p = outP ∧ ph ≠ Phase.p1 ∧
    (∀ rec ∈ fs2.files, rec ∈ fs.files ∨ rec.path = outP) ∧
    fs2.fmtOf outP = some Fmt.webp ∧
    ∃ delta, fs2.events = fs.events ++ delta ∧
      ∃ src, destWrites delta outP = [FsEvent.rename src outP] := by
  simp only [phase23] at heq
  split at heq
  · next e fsE hsplit =>
      rw [Prod.mk.injEq] at heq
      exact absurd heq.1 (by simp)
  · next p' fsP hsplit =>
      rw [Prod.mk.injEq, Except.ok.injEq, Prod.mk.injEq] at heq
      obtain ⟨⟨hp, hph⟩, hfs⟩ := heq
      obtain ⟨hpo, hfmt, hfiles, delta, hev, src, hdw⟩ :=
        p2_result env outP hout _ _ _ _ _ _ hsplit
      subst hfs
      refine ⟨hp ▸ hpo, by rw [← hph]; simp, hfiles, hfmt,
        delta, hev, src, hdw⟩
  · next fsP hsplit =>
      obtain ⟨hfilesP, delta1, hev1, hdw1⟩ :=
        p2_result_none env outP hout _ _ _ _ _ hsplit
      cases henc3 : env.p2enc
          (max 10 (Rat.floor ((env.width : ℚ) * (2 / 10))).toNat)
          (max 10 (Rat.floor ((env.height : ℚ) * (2 / 10))).toNat) with
      | some sz =>
          obtain ⟨fs3, hp3, hsize3, hfmt3, hfiles3, delta3, hev3, hdw3⟩ :=
            (phase3_eval env outP fsP hout).1 sz henc3
          rw [hp3, Prod.mk.injEq, Except.ok.injEq, Prod.mk.injEq] at heq
          obtain ⟨⟨hp, hph⟩, hfs⟩ := heq
          subst hfs
          refine ⟨hp.symm, by rw [← hph]; simp, ?_, hfmt3,
            delta1 ++ delta3, ?_, FPath.p3temp, ?_⟩
          · intro rec hrec
            rcases hfiles3 rec hrec with hr | hr
            · exact Or.inl (hfilesP rec hr)
            · exact Or.inr hr
          · rw [hev3, hev1, List.append_assoc]
          · rw [destWrites_append, hdw1, hdw3]
            rfl
      | none =>
          obtain ⟨fs3, hp3, -⟩ := (phase3_eval env outP fsP hout).2 henc3
          rw [hp3, Prod.mk.injEq] at heq
          exact absurd heq.1 (by simp)

/-- C6 (amended): on the success exit paths the cleanup claim does hold —
whenever `compress_to_size` returns normally and no temp artifact
pre-existed, the final file system contains no temporary artifact: the
Phase-1 probe temps are each deleted before the next probe or before the
accept, Phase 2/3 temps are deleted or renamed onto the output path, and
the `finally` block removes the pre-scale temp.  (The exception paths do
leak the best-so-far Phase-1 temp, which is the `c6_counterexample`.) -/
theorem c6_success_path_cleanup (env : Env) (f : ℕ → ℕ)
    (henc : ∀ q, env.p1enc q = some (f q))
    (h1 : env.inputExists = true) (h2 : env.isValidImage = true)
    (h3 : env.scaleFactor = none)
    (hpre : ∀ rec ∈ env.preexisting, rec.path.isTemp = false) :
    ∀ p ph fs', compressToSize env = some (Except.ok (p, ph), fs') →
      ∀ rec ∈ fs'.files, rec.path.isTemp = false := by
  have hpre' : ∀ rec ∈ env.preexisting, ∀ qq, rec.path ≠ FPath.p1temp qq := by
    intro rec hrec qq hc
    have h := hpre rec hrec
    rw [hc] at h
    exact Bool.noConfusion h
  rcases run_accept_cases env f henc h1 h2 h3 hpre' with
    ⟨-, outP, fsC, houtd, hcs, -, hfilesC2, -⟩ |
    ⟨-, outP, fsC, houtd, hcs, hfilesC2, -, -, -⟩
  · intro p ph fs' hex
    rw [hcs] at hex
    simp only [Option.some.injEq, Prod.mk.injEq] at hex
    obtain ⟨-, hfs⟩ := hex
    intro rec hrec
    rw [← hfs] at hrec
    have hmem := mem_files_removeIfExists hrec
    rcases hfilesC2 rec hmem with hr | hr | hr
    · exact hpre rec hr
    · rw [hr]; rfl
    · rw [hr]; rfl
  · intro p ph fs' hex
    rw [hcs] at hex
    simp only [Option.some.injEq, Prod.mk.injEq] at hex
    obtain ⟨hr1, hr2⟩ := hex
    have heq : phase23 env (p1best env) env.inputSize outP fsC =
        (Except.ok (p, ph),
          (phase23 env (p1best env) env.inputSize outP fsC).2) := by
      rw [← hr1]
    obtain ⟨hpo, -, hfilesP, -, -⟩ :=
      p23_result_ok env (p1best env) env.inputSize outP fsC p ph _ houtd heq
    intro rec hrec
    rw [← hr2] at hrec
    have hmem := mem_files_removeIfExists hrec
    rcases hfilesP rec hmem with hr | hr
    · rcases hfilesC2 rec hr with hh | hh | hh
      · exact hpre rec hh
      · rw [hh]; rfl
      · rw [hh]; rfl
    · rw [hr]
      rcases houtd with ho | ho <;> rw [ho] <;> rfl

/-- C6 witness: on the nominal environment (which returns successfully in
Phase 3) the final file system is free of temporary artifacts. -/
theorem c6_witness :
    ((finalFsOf (compressToSize baseEnv)).files.all
      (fun rec => !rec.path.isTemp)) = true := by
  have hok : isOkAt (compressToSize baseEnv) FPath.output Phase.p3 = true := by
    with_unfolding_all decide
  obtain ⟨fs', hfs⟩ := isOkAt_iff.mp hok
  have hall := c6_success_path_cleanup baseEnv (fun _ => 2000) (fun _ => rfl)
    rfl rfl rfl (fun rec hrec => absurd hrec (by simp [baseEnv]))
    FPath.output Phase.p3 fs' hfs
  rw [hfs]
  simp only [finalFsOf]
  rw [List.all_eq_true]
  intro rec hrec
  have h := hall rec hrec
  simp [h]

/-- C7 (amended): the validation performed before any encoding work covers
exactly three preconditions — the source file must exist (lines 197-198,
`FileNotFoundError`), it must be a valid decodable image (lines 201-202,
`ValueError`), and a supplied scale factor must lie in [0.1, 1.0] (lines
205-207, `ValueError`); each failure is raised with the file system still
untouched (no events).  No check of `tolerance_percent` or
`target_size_kb` exists (the `c7_counterexample` runs to completion with
`target_size_kb = 0` and `tolerance_percent = 0`). -/
theorem c7_validation_checks (env : Env) :
    (env.inputExists = false →
      compressToSize env = some (Except.error CErr.fileNotFound, env.fs0)) ∧
    (env.inputExists = true → env.isValidImage = false →
      compressToSize env = some (Except.error CErr.invalidImage, env.fs0)) ∧
    (∀ sf, env.inputExists = true → env.isValidImage = true →
      env.scaleFactor = some sf → (sf < 1 / 10 ∨ 1 < sf) →
      compressToSize env =
        some (Except.error CErr.badScaleFactor, env.fs0)) ∧
    env.fs0.events = [] := by
  refine ⟨?_, ?_, ?_, rfl⟩
  · intro h
    simp [compressToSize, h]
  · intro hh1 hh2
    simp [compressToSize, hh1, hh2]
  · intro sf hh1 hh2 hsf hbad
    simp only [compressToSize, hh1, hh2, hsf]
    rw [if_neg (by simp), if_neg (by simp), if_pos hbad]

/-- A request whose scale factor 2.0 lies outside the allowed [0.1, 1.0]
range. -/
def envC7b : Env := { baseEnv with scaleFactor := some 2 }

/-- C7 witness: on `envC7b` (scale factor 2.0) the request fails with the
scale-factor `ValueError` and an untouched file system. -/
theorem c7_witness :
    compressToSize envC7b =
      some (Except.error CErr.badScaleFactor, envC7b.fs0) ∧
    envC7b.fs0.events = [] :=
  ⟨(c7_validation_checks envC7b).2.2.1 2 rfl rfl rfl
      (Or.inr (by norm_num)),
    (c7_validation_checks envC7b).2.2.2⟩

/-- C8 (amended): when the requested output path ends in `.webp` and the
tolerance is nonnegative, the destination path is indeed written exactly
once and atomically: the only write event touching the output path in a
successful run is the single rename of a temp file onto it (Phase 1 line
320 `os.rename(temp_path, output_path)`, Phase 2 line 400, Phase 3 line
445).  The non-atomic direct save of line 328 is only reachable when the
output extension differs from `.webp` (see `c8_counterexample`). -/
theorem c8_single_atomic_write_webp_dest (env : Env) (f : ℕ → ℕ)
    (henc : ∀ q, env.p1enc q = some (f q))
    (h1 : env.inputExists = true) (h2 : env.isValidImage = true)
    (h3 : env.scaleFactor = none)
    (hpre : ∀ rec ∈ env.preexisting, ∀ qq, rec.path ≠ FPath.p1temp qq)
    (htol : 0 ≤ env.tolPct)
    (hweb : env.outputEndsWebp = true) :
    ∀ p ph fs', compressToSize env = some (Except.ok (p, ph), fs') →
      p = FPath.output ∧
      ∃ src, destWrites fs'.events FPath.output =
        [FsEvent.rename src FPath.output] := by
  rcases run_accept_cases env f henc h1 h2 h3 hpre with
    ⟨-, outP, fsC, houtd, hcs, -, -, hwebc⟩ |
    ⟨-, outP, fsC, houtd, hcs, -, htolc, hnonec, hforcec⟩
  · obtain ⟨houtP, src, hdwC⟩ := hwebc hweb
    intro p ph fs' hex
    rw [hcs] at hex
    simp only [Option.some.injEq, Prod.mk.injEq, Except.ok.injEq] at hex
    obtain ⟨⟨hp, -⟩, hfs⟩ := hex
    refine ⟨by rw [← hp, houtP], src, ?_⟩
    rw [← hfs, events_removeIfExists, destWrites_append, hdwC,
      destWrites_ite_remove, List.append_nil]
  · have hdw0 := hnonec (hforcec hweb htol)
    have houtP := htolc htol
    intro p ph fs' hex
    rw [hcs] at hex
    simp only [Option.some.injEq, Prod.mk.injEq] at hex
    obtain ⟨hr1, hr2⟩ := hex
    have heq : phase23 env (p1best env) env.inputSize outP fsC =
        (Except.ok (p, ph),
          (phase23 env (p1best env) env.inputSize outP fsC).2) := by
      rw [← hr1]
    obtain ⟨hpo, -, -, -, delta, hev, src, hdw⟩ :=
      p23_result_ok env (p1best env) env.inputSize outP fsC p ph _ houtd heq
    rw [houtP] at hpo hdw
    refine ⟨hpo, src, ?_⟩
    rw [← hr2, events_removeIfExists, destWrites_append,
      destWrites_ite_remove, List.append_nil, hev, destWrites_append,
      hdw0, hdw, List.nil_append]

/-- C8 witness: the nominal environment (output ends in `.webp`,
tolerance 5%) returns successfully at the output path with a single
atomic rename write on it. -/
theorem c8_witness :
    ∃ src, destWrites (finalFsOf (compressToSize baseEnv)).events
      FPath.output = [FsEvent.rename src FPath.output] := by
  have hok : isOkAt (compressToSize baseEnv) FPath.output Phase.p3 = true := by
    with_unfolding_all decide
  obtain ⟨fs', hfs⟩ := isOkAt_iff.mp hok
  have h := c8_single_atomic_write_webp_dest baseEnv (fun _ => 2000)
    (fun _ => rfl) rfl rfl rfl
    (fun rec hrec => absurd hrec (by simp [baseEnv]))
    (by norm_num [baseEnv]) rfl
    FPath.output Phase.p3 fs' hfs
  rw [hfs]
  exact h.2

/-- C10 (amended): whenever `compress_to_size` concludes in Phase 2 or
Phase 3, the returned file is the minimum-quality grayscale WebP temp file
renamed onto the working output path with no container re-encode (lines
396-400 and 443-445), so the returned path holds WebP data whatever its
extension; the working output path is the requested output path whenever
the tolerance is nonnegative, and can differ from it (the `.webp` sibling)
only after the line-335 reassignment on a failed Phase-1 container
re-encode, which needs a negative tolerance to still reach Phase 2/3 (see
`c10_counterexample`). -/
theorem c10_no_reencode_phase23 (env : Env) (f : ℕ → ℕ)
    (henc : ∀ q, env.p1enc q = some (f q))
    (h1 : env.inputExists = true) (h2 : env.isValidImage = true)
    (h3 : env.scaleFactor = none)
    (hpre : ∀ rec ∈ env.preexisting, ∀ qq, rec.path ≠ FPath.p1temp qq) :
    ∀ p ph fs', compressToSize env = some (Except.ok (p, ph), fs') →
      ph ≠ Phase.p1 →
      fs'.fmtOf p = some Fmt.webp ∧
      (p = FPath.output ∨ p = FPath.webpSibling) ∧
      (0 ≤ env.tolPct → p = FPath.output) := by
  rcases run_accept_cases env f henc h1 h2 h3 hpre with
    ⟨-, outP, fsC, houtd, hcs, -, -, -⟩ |
    ⟨-, outP, fsC, houtd, hcs, -, htolc, -, -⟩
  · intro p ph fs' hex hph
    rw [hcs] at hex
    simp only [Option.some.injEq, Prod.mk.injEq, Except.ok.injEq] at hex
    exact absurd hex.1.2.symm hph
  · intro p ph fs' hex hph
    rw [hcs] at hex
    simp only [Option.some.injEq, Prod.mk.injEq] at hex
    obtain ⟨hr1, hr2⟩ := hex
    have heq : phase23 env (p1best env) env.inputSize outP fsC =
        (Except.ok (p, ph),
          (phase23 env (p1best env) env.inputSize outP fsC).2) := by
      rw [← hr1]
    obtain ⟨hpo, -, -, hfmt, -⟩ :=
      p23_result_ok env (p1best env) env.inputSize outP fsC p ph _ houtd heq
    have hne : ¬ FPath.prescaleTemp = outP := by
      rcases houtd with ho | ho <;> rw [ho] <;> intro hc <;> cases hc
    refine ⟨?_, by rw [hpo]; exact houtd, fun htol => by
      rw [hpo]; exact htolc htol⟩
    rw [← hr2, hpo, fmtOf_removeIfExists_ne _ hne]
    exact hfmt

/-- C10 witness: on `envC10` (failed container re-encode, negative
tolerance) the request concludes in Phase 2 at the `.webp` sibling path,
and the returned file's format is WebP. -/
theorem c10_witness :
    (finalFsOf (compressToSize envC10)).fmtOf FPath.webpSibling =
      some Fmt.webp := by
  have hok : isOkAt (compressToSize envC10) FPath.webpSibling Phase.p2 =
      true := by
    with_unfolding_all decide
  obtain ⟨fs', hfs⟩ := isOkAt_iff.mp hok
  have h := c10_no_reencode_phase23 envC10 (fun _ => 600) (fun _ => rfl)
    rfl rfl rfl (fun rec hrec => absurd hrec (by simp [envC10, baseEnv]))
    FPath.webpSibling Phase.p2 fs' hfs (fun hc => Phase.noConfusion hc)
  rw [hfs]
  exact h.1
